import Mathlib

/-!
# easyskiplist: a verification development for `skiplist.go`

The Go program keeps a skip list in garbage-collected memory: a `SkipList`
record pointing at a sentinel `Head` element, and `Element` records linked by
arrays of pointers.  The embedding below makes that memory explicit.

* A pointer `*Element` is an `Option Nat`: `none` is `nil`, `some a` is the
  address `a` of a record in the store.
* The store is the list `mem` of all records ever allocated; the address of a
  record is its position.  `newElement` appends a record.  Nothing is ever
  freed (Go collects unreachable records, which no operation can observe).
* A slice `[]*Element` is a `List (Option Nat)`; indexing outside the slice
  panics in Go and yields `none` here.
* Every operation returns an `Option`: `none` stands for a run that does not
  return normally (a nil dereference, an index out of range, or a pointer walk
  that never ends).  The pointer walks take a step budget; the operations pass
  the number of records in the store, which a walk can only exceed by
  visiting some record twice, that is, by looping forever.
* `int` keys are `Int`, the `interface{}` payload is `Option V` (`none` is the
  nil interface value).  `Level` and the loop counters are `Nat`: they start at
  zero and are only incremented, up to `MaxLevel`.  `Len` is an `Int`; the
  wrap-around of the 64-bit counter is not modelled.
* `rand.Float32() < Probability` is one Bernoulli trial; `randomLevel` reads
  its trials from a sequence `rnd : Nat → Bool` handed to `Insert`.
* The `sync.RWMutex` is not modelled: the development is about sequential
  executions.
-/

namespace skiplist

/-! ## The program -/

/-- The constant `MaxLevel`. -/
def MaxLevel : Nat := 16

/-- The record `Element`. -/
structure Element (V : Type) where
  Forward : List (Option Nat)
  Key : Int
  Value : Option V
deriving DecidableEq, Repr

/-- The record `SkipList`, together with the store `mem` its pointers refer to. -/
structure SkipList (V : Type) where
  Level : Nat
  Len : Int
  Head : Nat
  mem : List (Element V)
deriving DecidableEq, Repr

/-- The function `New`: the sentinel is allocated at address 0 with `MaxLevel` nil
forward pointers and zero key and value; `Len` takes its zero value. -/
def New {V : Type} : SkipList V :=
  { Level := 0
    Len := 0
    Head := 0
    mem := [{ Forward := List.replicate MaxLevel none, Key := 0, Value := none }] }

/-- The loop of `randomLevel`: `for rand.Float32() < Probability && level < MaxLevel { level++ }`.
The trial is drawn before `level < MaxLevel` is tested; the trial drawn while the
counter is `level` is `rnd (level - 1)`.  The first argument bounds the number of
iterations. -/
def randomLevelLoop (rnd : Nat → Bool) : Nat → Nat → Nat
  | 0, level => level
  | fuel + 1, level =>
    if rnd (level - 1) && decide (level < MaxLevel) then randomLevelLoop rnd fuel (level + 1)
    else level

/-- The function `randomLevel`.  The loop runs at most `MaxLevel` times. -/
def randomLevel (rnd : Nat → Bool) : Nat :=
  randomLevelLoop rnd MaxLevel 1

/-- The inner loop shared by `Search`, `Insert` and `Delete`:
`for x.Forward[i] != nil && x.Forward[i].Key < key { x = x.Forward[i] }`,
started at the record `x`; it yields the record at which the loop stops. -/
def walk {V : Type} (mem : List (Element V)) (i : Nat) (key : Int) : Nat → Nat → Option Nat
  | 0, _ => none
  | fuel + 1, x =>
    match mem[x]? with
    | none => none
    | some ex =>
      match ex.Forward[i]? with
      | none => none
      | some none => some x
      | some (some y) =>
        match mem[y]? with
        | none => none
        | some ey => if ey.Key < key then walk mem i key fuel y else some x

/-- The outer loop of `Search`: `for i := n - 1; i >= 0; i-- { walk at level i }`. -/
def searchLevels {V : Type} (mem : List (Element V)) (key : Int) (fuel : Nat) :
    Nat → Nat → Option Nat
  | 0, x => some x
  | i + 1, x =>
    match walk mem i key fuel x with
    | none => none
    | some y => searchLevels mem key fuel i y

/-- The outer loop of `Insert` and `Delete`:
`for i := n - 1; i >= 0; i-- { walk at level i; update[i] = x }`. -/
def updateLevels {V : Type} (mem : List (Element V)) (key : Int) (fuel : Nat) :
    Nat → Nat → List (Option Nat) → Option (Nat × List (Option Nat))
  | 0, x, update => some (x, update)
  | i + 1, x, update =>
    match walk mem i key fuel x with
    | none => none
    | some y =>
      if i < update.length then updateLevels mem key fuel i y (update.set i (some y))
      else none

/-- The method `Search`.  The result is the pair `(element, ok)`. -/
def Search {V : Type} (s : SkipList V) (key : Int) : Option (Option Nat × Bool) :=
  match searchLevels s.mem key s.mem.length s.Level s.Head with
  | none => none
  | some x =>
    match s.mem[x]? with
    | none => none
    | some ex =>
      match ex.Forward[0]? with
      | none => none
      | some none => some (none, false)
      | some (some y) =>
        match s.mem[y]? with
        | none => none
        | some ey => if ey.Key = key then some (some y, true) else some (none, false)

/-- The function `newElement`: the record that is allocated. -/
def newElement {V : Type} (key : Int) (value : Option V) (level : Nat) : Element V :=
  { Key := key, Value := value, Forward := List.replicate level none }

/-- One iteration of the splice loop of `Insert`:
`e.Forward[i] = update[i].Forward[i]; update[i].Forward[i] = e`. -/
def spliceStep {V : Type} (update : List (Option Nat)) (e : Nat) (i : Nat)
    (mem : List (Element V)) : Option (List (Element V)) :=
  match update[i]? with
  | some (some p) =>
    match mem[p]? with
    | none => none
    | some ep =>
      match ep.Forward[i]? with
      | none => none
      | some nxt =>
        match mem[e]? with
        | none => none
        | some ee =>
          if i < ee.Forward.length then
            let mem1 := mem.set e { ee with Forward := ee.Forward.set i nxt }
            match mem1[p]? with
            | none => none
            | some ep1 =>
              if i < ep1.Forward.length then
                some (mem1.set p { ep1 with Forward := ep1.Forward.set i (some e) })
              else none
          else none
  | _ => none

/-- The first `n` iterations of the splice loop of `Insert`, `i = 0, 1, ..., n - 1`. -/
def spliceLoop {V : Type} (update : List (Option Nat)) (e : Nat) :
    Nat → List (Element V) → Option (List (Element V))
  | 0, mem => some mem
  | n + 1, mem =>
    match spliceLoop update e n mem with
    | none => none
    | some mem1 => spliceStep update e n mem1

/-- Lines 102-109 of `Insert`: allocate the element with `level` forward slots, splice
it in at the levels below `level`, increment `Len` and return the new element. -/
def insertAt {V : Type} (s : SkipList V) (key : Int) (value : Option V) (level : Nat)
    (update : List (Option Nat)) : Option (SkipList V × Option Nat) :=
  let e := s.mem.length
  match spliceLoop update e level (s.mem ++ [newElement key value level]) with
  | none => none
  | some mem1 => some ({ s with Len := s.Len + 1, mem := mem1 }, some e)

/-- Lines 94-109 of `Insert`, the path taken when the key was not found: draw a level;
if it exceeds `s.Level` then `level = s.Level + 1; update[s.Level] = s.Head; s.Level = level`. -/
def insertNew {V : Type} (s : SkipList V) (key : Int) (value : Option V) (rnd : Nat → Bool)
    (update : List (Option Nat)) : Option (SkipList V × Option Nat) :=
  let level := randomLevel rnd
  if level > s.Level then
    if s.Level < update.length then
      insertAt { s with Level := s.Level + 1 } key value (s.Level + 1)
        (update.set s.Level (some s.Head))
    else none
  else insertAt s key value level update

/-- The method `Insert`.  `rnd` is the sequence of trials `randomLevel` reads.  The
result is the list after the call and the returned pointer. -/
def Insert {V : Type} (s : SkipList V) (key : Int) (value : Option V) (rnd : Nat → Bool) :
    Option (SkipList V × Option Nat) :=
  match updateLevels s.mem key s.mem.length s.Level s.Head (List.replicate MaxLevel none) with
  | none => none
  | some (x, update) =>
    match s.mem[x]? with
    | none => none
    | some ex =>
      match ex.Forward[0]? with
      | none => none
      | some none => insertNew s key value rnd update
      | some (some y) =>
        match s.mem[y]? with
        | none => none
        | some ey =>
          if ey.Key = key then
            some ({ s with mem := s.mem.set y { ey with Value := value } }, some y)
          else insertNew s key value rnd update

/-- One iteration of the unlink loop of `Delete`:
`if update[i].Forward[i] != x { return nil }; update[i].Forward[i] = x.Forward[i]`.
The inner `none` is the early `return nil`. -/
def unlinkStep {V : Type} (update : List (Option Nat)) (x : Nat) (i : Nat)
    (mem : List (Element V)) : Option (Option (List (Element V))) :=
  match update[i]? with
  | some (some p) =>
    match mem[p]? with
    | none => none
    | some ep =>
      match ep.Forward[i]? with
      | none => none
      | some f =>
        if f ≠ some x then some none
        else
          match mem[x]? with
          | none => none
          | some ex =>
            match ex.Forward[i]? with
            | none => none
            | some nxt => some (some (mem.set p { ep with Forward := ep.Forward.set i nxt }))
  | _ => none

/-- The first `n` iterations of the unlink loop of `Delete`, `i = 0, 1, ..., n - 1`.  The
flag tells whether the loop left through `return nil`; the store is the one at that
moment. -/
def unlinkLoop {V : Type} (update : List (Option Nat)) (x : Nat) :
    Nat → List (Element V) → Option (List (Element V) × Bool)
  | 0, mem => some (mem, false)
  | n + 1, mem =>
    match unlinkLoop update x n mem with
    | none => none
    | some (mem1, true) => some (mem1, true)
    | some (mem1, false) =>
      match unlinkStep update x n mem1 with
      | none => none
      | some none => some (mem1, true)
      | some (some mem2) => some (mem2, false)

/-- The method `Delete`.  The result is the list after the call and the returned
pointer. -/
def Delete {V : Type} (s : SkipList V) (key : Int) : Option (SkipList V × Option Nat) :=
  match updateLevels s.mem key s.mem.length s.Level s.Head (List.replicate MaxLevel none) with
  | none => none
  | some (x, update) =>
    match s.mem[x]? with
    | none => none
    | some ex =>
      match ex.Forward[0]? with
      | none => none
      | some none => some (s, none)
      | some (some y) =>
        match s.mem[y]? with
        | none => none
        | some ey =>
          if ey.Key = key then
            match unlinkLoop update y s.Level s.mem with
            | none => none
            | some (mem1, true) => some ({ s with mem := mem1 }, none)
            | some (mem1, false) => some ({ s with Len := s.Len - 1, mem := mem1 }, some y)
          else some (s, some y)

/-- The method `Length`. -/
def Length {V : Type} (s : SkipList V) : Int := s.Len

/-- The traversal of one level as `DumpSkipList` performs it,
`for x.Forward[i] != nil { ...; x = x.Forward[i] }`: the addresses of the records met
after `x`, in order. -/
def chainFrom {V : Type} (mem : List (Element V)) (i : Nat) : Nat → Nat → Option (List Nat)
  | 0, _ => none
  | fuel + 1, x =>
    match mem[x]? with
    | none => none
    | some ex =>
      match ex.Forward[i]? with
      | none => none
      | some none => some []
      | some (some y) =>
        match chainFrom mem i fuel y with
        | none => none
        | some rest => some (y :: rest)

/-- The chain of level `i` from `Head`. -/
def levelChain {V : Type} (s : SkipList V) (i : Nat) : Option (List Nat) :=
  chainFrom s.mem i s.mem.length s.Head

/-- The lists a program can build: `New()` followed by any finite sequence of `Insert`
and `Delete` calls that return, with any trials for each `Insert`. -/
inductive Reachable {V : Type} : SkipList V → Prop
  | new : Reachable New
  | insert (s s1 : SkipList V) (key : Int) (value : Option V) (rnd : Nat → Bool)
      (r : Option Nat) : Reachable s → Insert s key value rnd = some (s1, r) → Reachable s1
  | delete (s s1 : SkipList V) (key : Int) (r : Option Nat) :
      Reachable s → Delete s key = some (s1, r) → Reachable s1

/-! ## Reading the store -/

/-- The record at address `a`; an empty record when nothing is allocated there. -/
def cell {V : Type} (mem : List (Element V)) (a : Nat) : Element V :=
  (mem[a]?).getD { Forward := [], Key := 0, Value := none }

/-- The number of forward slots of the record at `a`: `len(a.Forward)`. -/
def ht {V : Type} (mem : List (Element V)) (a : Nat) : Nat := (cell mem a).Forward.length

/-- The key of the record at `a`: `a.Key`. -/
def keyAt {V : Type} (mem : List (Element V)) (a : Nat) : Int := (cell mem a).Key

/-- The value of the record at `a`: `a.Value`. -/
def valAt {V : Type} (mem : List (Element V)) (a : Nat) : Option V := (cell mem a).Value

/-- The forward pointer of the record at `a` at level `i`: `a.Forward[i]`. -/
def fwd {V : Type} (mem : List (Element V)) (a i : Nat) : Option Nat :=
  ((cell mem a).Forward[i]?).getD none

/-- The list holds `key`: an element with this key is on the level-0 chain from `Head`. -/
def Holds {V : Type} (s : SkipList V) (key : Int) : Prop :=
  ∃ c, levelChain s 0 = some c ∧ ∃ a ∈ c, keyAt s.mem a = key

/-- The store after the assignment `a.Forward[i] = v`. -/
def setFwd {V : Type} (mem : List (Element V)) (a i : Nat) (v : Option Nat) :
    List (Element V) :=
  mem.set a { cell mem a with Forward := (cell mem a).Forward.set i v }

/-! ## The shape of a well-formed list

`H a` is the number of forward slots of the record at `a`, `K a` its key and `F a i`
its forward pointer at level `i`. -/

/-- The first address of `l` whose record has a slot at level `i`. -/
def firstAt (H : Nat → Nat) (i : Nat) (l : List Nat) : Option Nat :=
  l.find? fun a => decide (i < H a)

/-- The last address of `x :: l` with a slot at level `i`, `x` being taken to have one. -/
def lastAt (H : Nat → Nat) (i : Nat) : Nat → List Nat → Nat
  | x, [] => x
  | x, a :: l => if i < H a then lastAt H i a l else lastAt H i x l

/-- Where a walk at level `i` for `key` that starts at `x` and has the records `l`
ahead of it stops. -/
def stopAt (H : Nat → Nat) (K : Nat → Int) (i : Nat) (key : Int) : Nat → List Nat → Nat
  | x, [] => x
  | x, a :: l =>
    if i < H a then (if K a < key then stopAt H K i key a l else x)
    else stopAt H K i key x l

/-- Every record of `l` points, at each of its levels, at the next record of `l` that
has this level. -/
def Linked (H : Nat → Nat) (F : Nat → Nat → Option Nat) : List Nat → Prop
  | [] => True
  | a :: l => (∀ i, i < H a → F a i = firstAt H i l) ∧ Linked H F l

/-- The list `s` is well formed and `c` lists its elements in level-0 order: the
sentinel is at address 0 with `MaxLevel` slots, every element has between 1 and
`s.Level` slots, the keys increase strictly along `c`, and the pointers of every level
thread exactly the records that have this level. -/
structure Inv {V : Type} (s : SkipList V) (c : List Nat) : Prop where
  head : s.Head = 0
  headHt : ht s.mem 0 = MaxLevel
  level : s.Level ≤ MaxLevel
  valid : ∀ a ∈ c, a ≠ 0 ∧ a < s.mem.length
  hts : ∀ a ∈ c, 1 ≤ ht s.mem a ∧ ht s.mem a ≤ s.Level
  sorted : c.Pairwise fun a b => keyAt s.mem a < keyAt s.mem b
  linked : Linked (ht s.mem) (fwd s.mem) (0 :: c)

/-! ## Sample runs -/

/-- A sequence of trials whose first `n - 1` trials succeed and whose next trial fails:
on it `randomLevel` draws `n`, for `1 ≤ n ≤ MaxLevel`. -/
def draw (n : Nat) : Nat → Bool := fun i => decide (i + 1 < n)

/-- The sentinel record of the sample lists, with its pointers at levels 0 and 1. -/
def sentinel (f0 f1 : Option Nat) : Element Nat :=
  { Forward := f0 :: f1 :: List.replicate 14 none, Key := 0, Value := none }

/-- The list after `Insert(10, 100)` on `New()`, the level drawn being 1. -/
def run1 : SkipList Nat :=
  { Level := 1, Len := 1, Head := 0
    mem := [sentinel (some 1) none, { Forward := [none], Key := 10, Value := some 100 }] }

/-- The list after `Insert(20, 200)` on `run1`, the level drawn being 2. -/
def run2 : SkipList Nat :=
  { Level := 2, Len := 2, Head := 0
    mem := [sentinel (some 1) (some 2),
      { Forward := [some 2], Key := 10, Value := some 100 },
      { Forward := [none, none], Key := 20, Value := some 200 }] }

/-- The list after `Insert(5, 50)` on `run2`, the level drawn being 1. -/
def run3 : SkipList Nat :=
  { Level := 2, Len := 3, Head := 0
    mem := [sentinel (some 3) (some 2),
      { Forward := [some 2], Key := 10, Value := some 100 },
      { Forward := [none, none], Key := 20, Value := some 200 },
      { Forward := [some 1], Key := 5, Value := some 50 }] }

/-- The list after `Insert(15, 150)` on `run3`, the level drawn being 1: the keys 10, 20,
5 and 15 have been inserted in this order. -/
def run4 : SkipList Nat :=
  { Level := 2, Len := 4, Head := 0
    mem := [sentinel (some 3) (some 2),
      { Forward := [some 4], Key := 10, Value := some 100 },
      { Forward := [none, none], Key := 20, Value := some 200 },
      { Forward := [some 1], Key := 5, Value := some 50 },
      { Forward := [some 2], Key := 15, Value := some 150 }] }

/-- The list after `Delete(10)` on `run4`: the element 5 now points at the element 15,
and `Len` is still 4. -/
def run5 : SkipList Nat :=
  { Level := 2, Len := 4, Head := 0
    mem := [sentinel (some 3) (some 2),
      { Forward := [some 4], Key := 10, Value := some 100 },
      { Forward := [none, none], Key := 20, Value := some 200 },
      { Forward := [some 4], Key := 5, Value := some 50 },
      { Forward := [some 2], Key := 15, Value := some 150 }] }

/-- The list after `Delete(10)` on `run1`: no element is left on any chain, and `Level`
is still 1. -/
def run6 : SkipList Nat :=
  { Level := 1, Len := 0, Head := 0
    mem := [sentinel none none, { Forward := [none], Key := 10, Value := some 100 }] }

/-! ## Reading the store: basic facts -/

theorem cell_eq_of_get {V : Type} {mem : List (Element V)} {a : Nat} {e : Element V}
    (h : mem[a]? = some e) : cell mem a = e := by
  simp [cell, h]

theorem get_eq_cell {V : Type} {mem : List (Element V)} {a : Nat} (h : a < mem.length) :
    mem[a]? = some (cell mem a) := by
  simp [cell, List.getElem?_eq_getElem h]

theorem lt_length_of_ht_pos {V : Type} {mem : List (Element V)} {a i : Nat}
    (h : i < ht mem a) : a < mem.length := by
  by_contra hc
  have : mem[a]? = none := List.getElem?_eq_none (by omega)
  simp [ht, cell, this] at h

theorem forward_get_eq_fwd {V : Type} {mem : List (Element V)} {a i : Nat}
    (h : i < ht mem a) : (cell mem a).Forward[i]? = some (fwd mem a i) := by
  have h1 : i < (cell mem a).Forward.length := h
  simp [fwd, List.getElem?_eq_getElem h1]

/-! ## Facts about `firstAt`, `lastAt`, `stopAt` and `Linked` -/

theorem firstAt_nil (H : Nat → Nat) (i : Nat) : firstAt H i [] = none := rfl

theorem firstAt_cons_pos {H : Nat → Nat} {i a : Nat} (l : List Nat) (h : i < H a) :
    firstAt H i (a :: l) = some a := by
  simp [firstAt, List.find?, h]

theorem firstAt_cons_neg {H : Nat → Nat} {i a : Nat} (l : List Nat) (h : ¬ i < H a) :
    firstAt H i (a :: l) = firstAt H i l := by
  simp [firstAt, List.find?, h]

theorem firstAt_some {H : Nat → Nat} {i y : Nat} {l : List Nat}
    (h : firstAt H i l = some y) : y ∈ l ∧ i < H y := by
  unfold firstAt at h
  exact ⟨List.mem_of_find?_eq_some h, by simpa using List.find?_some h⟩

theorem walk_eq_stopAt {V : Type} (mem : List (Element V)) (i : Nat) (key : Int) :
    ∀ (l : List Nat) (x fuel : Nat), l.length < fuel → i < ht mem x →
      (∀ a ∈ l, a < mem.length) → fwd mem x i = firstAt (ht mem) i l →
      Linked (ht mem) (fwd mem) l →
      walk mem i key fuel x = some (stopAt (ht mem) (keyAt mem) i key x l) := by
  intro l
  induction l with
  | nil =>
    intro x fuel hf hx _ hF _
    obtain ⟨f, rfl⟩ : ∃ f, fuel = f + 1 := ⟨fuel - 1, by simp at hf; omega⟩
    rw [firstAt_nil] at hF
    simp [walk, get_eq_cell (lt_length_of_ht_pos hx), forward_get_eq_fwd hx, hF, stopAt]
  | cons a l ih =>
    intro x fuel hf hx hv hF hL
    obtain ⟨f, rfl⟩ : ∃ f, fuel = f + 1 := ⟨fuel - 1, by simp at hf; omega⟩
    by_cases ha : i < ht mem a
    · rw [firstAt_cons_pos l ha] at hF
      have hav : a < mem.length := hv a (List.mem_cons_self a l)
      by_cases hk : keyAt mem a < key
      · have hk1 : (cell mem a).Key < key := hk
        have := ih a f (by simp at hf; omega) ha
          (fun b hb => hv b (List.mem_cons_of_mem a hb)) (hL.1 i ha) hL.2
        simp [walk, get_eq_cell (lt_length_of_ht_pos hx), forward_get_eq_fwd hx, hF,
          get_eq_cell hav, hk1, stopAt, ha, hk, this]
      · have hk1 : ¬ (cell mem a).Key < key := hk
        simp [walk, get_eq_cell (lt_length_of_ht_pos hx), forward_get_eq_fwd hx, hF,
          get_eq_cell hav, hk1, stopAt, ha, hk]
    · rw [firstAt_cons_neg l ha] at hF
      have := ih x (f + 1) (by simp at hf; omega) hx
        (fun b hb => hv b (List.mem_cons_of_mem a hb)) hF hL.2
      simp [stopAt, ha, this]

theorem firstAt_append_of_none {H : Nat → Nat} {i : Nat} {l : List Nat} (l2 : List Nat)
    (h : firstAt H i l = none) : firstAt H i (l ++ l2) = firstAt H i l2 := by
  induction l with
  | nil => rfl
  | cons a l ih =>
    by_cases ha : i < H a
    · rw [firstAt_cons_pos l ha] at h; cases h
    · rw [firstAt_cons_neg l ha] at h
      rw [List.cons_append, firstAt_cons_neg _ ha]; exact ih h

theorem firstAt_append_of_some {H : Nat → Nat} {i y : Nat} {l : List Nat} (l2 : List Nat)
    (h : firstAt H i l = some y) : firstAt H i (l ++ l2) = some y := by
  induction l with
  | nil => cases h
  | cons a l ih =>
    by_cases ha : i < H a
    · rw [firstAt_cons_pos l ha] at h
      rw [List.cons_append, firstAt_cons_pos _ ha]; exact h
    · rw [firstAt_cons_neg l ha] at h
      rw [List.cons_append, firstAt_cons_neg _ ha]; exact ih h

theorem firstAt_eq_none_iff {H : Nat → Nat} {i : Nat} {l : List Nat} :
    firstAt H i l = none ↔ ∀ a ∈ l, H a ≤ i := by
  simp [firstAt, List.find?_eq_none]

theorem firstAt_congr {H H1 : Nat → Nat} {i : Nat} {l : List Nat}
    (h : ∀ a ∈ l, H1 a = H a) : firstAt H1 i l = firstAt H i l := by
  induction l with
  | nil => rfl
  | cons a l ih =>
    have ha : H1 a = H a := h a (List.mem_cons_self a l)
    have hl := ih fun b hb => h b (List.mem_cons_of_mem a hb)
    by_cases hi : i < H a
    · rw [firstAt_cons_pos l hi, firstAt_cons_pos l (by rw [ha]; exact hi)]
    · rw [firstAt_cons_neg l hi, firstAt_cons_neg l (by rw [ha]; exact hi), hl]

theorem lastAt_mem (H : Nat → Nat) (i : Nat) :
    ∀ (l : List Nat) (x : Nat),
      lastAt H i x l = x ∨ (lastAt H i x l ∈ l ∧ i < H (lastAt H i x l)) := by
  intro l
  induction l with
  | nil => intro x; exact Or.inl rfl
  | cons a l ih =>
    intro x
    by_cases ha : i < H a
    · simp only [lastAt, ha, if_true]
      rcases ih a with h | h
      · right; rw [h]; exact ⟨List.mem_cons_self a l, ha⟩
      · right; exact ⟨List.mem_cons_of_mem a h.1, h.2⟩
    · simp only [lastAt, ha, if_false]
      rcases ih x with h | h
      · exact Or.inl h
      · right; exact ⟨List.mem_cons_of_mem a h.1, h.2⟩

theorem lastAt_eq_self {H : Nat → Nat} {i : Nat} {l : List Nat} (x : Nat)
    (h : firstAt H i l = none) : lastAt H i x l = x := by
  induction l with
  | nil => rfl
  | cons a l ih =>
    by_cases ha : i < H a
    · rw [firstAt_cons_pos l ha] at h; cases h
    · rw [firstAt_cons_neg l ha] at h
      simp only [lastAt, ha, if_false]; exact ih h

theorem lastAt_eq_self_iff {H : Nat → Nat} {i : Nat} {l : List Nat} {x : Nat}
    (hx : x ∉ l) : lastAt H i x l = x ↔ firstAt H i l = none := by
  constructor
  · intro h
    induction l with
    | nil => rfl
    | cons a l ih =>
      by_cases ha : i < H a
      · exfalso
        simp only [lastAt, ha, if_true] at h
        rcases lastAt_mem H i l a with h1 | h1
        · rw [h1] at h; exact hx (h ▸ List.mem_cons_self a l)
        · rw [h] at h1; exact hx (List.mem_cons_of_mem a h1.1)
      · simp only [lastAt, ha, if_false] at h
        rw [firstAt_cons_neg l ha]
        exact ih (fun hm => hx (List.mem_cons_of_mem a hm)) h
  · exact lastAt_eq_self x

theorem lastAt_append (H : Nat → Nat) (i : Nat) (l2 : List Nat) :
    ∀ (l : List Nat) (x : Nat),
      lastAt H i x (l ++ l2) = lastAt H i (lastAt H i x l) l2 := by
  intro l
  induction l with
  | nil => intro x; rfl
  | cons a l ih =>
    intro x
    by_cases ha : i < H a
    · simp only [List.cons_append, lastAt, ha, if_true]; exact ih a
    · simp only [List.cons_append, lastAt, ha, if_false]; exact ih x

theorem lastAt_split (H : Nat → Nat) (i : Nat) :
    ∀ (l : List Nat) (x : Nat), ∃ pre suf, x :: l = pre ++ lastAt H i x l :: suf ∧
      firstAt H i suf = none := by
  intro l
  induction l with
  | nil => intro x; exact ⟨[], [], rfl, rfl⟩
  | cons a l ih =>
    intro x
    by_cases ha : i < H a
    · obtain ⟨pre, suf, h1, h2⟩ := ih a
      refine ⟨x :: pre, suf, ?_, h2⟩
      simp only [lastAt, ha, if_true, List.cons_append, ← h1]
    · obtain ⟨pre, suf, h1, h2⟩ := ih x
      simp only [lastAt, ha, if_false]
      generalize lastAt H i x l = y at h1
      cases pre with
      | nil =>
        simp only [List.nil_append, List.cons.injEq] at h1
        refine ⟨[], a :: suf, ?_, ?_⟩
        · rw [← h1.1, h1.2]; rfl
        · rw [firstAt_cons_neg _ ha]; exact h2
      | cons p pre =>
        simp only [List.cons_append, List.cons.injEq] at h1
        refine ⟨x :: a :: pre, suf, ?_, h2⟩
        rw [h1.2]; rfl

theorem stopAt_of_ge {H : Nat → Nat} {K : Nat → Int} {i : Nat} {key : Int} {q : List Nat}
    (x : Nat) (hq : ∀ a ∈ q, key ≤ K a) : stopAt H K i key x q = x := by
  induction q with
  | nil => rfl
  | cons a q ih =>
    have ha : ¬ K a < key := not_lt.mpr (hq a (List.mem_cons_self a q))
    have := ih fun b hb => hq b (List.mem_cons_of_mem a hb)
    by_cases hi : i < H a <;> simp [stopAt, hi, ha, this]

theorem stopAt_append {H : Nat → Nat} {K : Nat → Int} {i : Nat} {key : Int} {q : List Nat}
    (hq : ∀ a ∈ q, key ≤ K a) :
    ∀ (p : List Nat) (x : Nat), (∀ a ∈ p, K a < key) →
      stopAt H K i key x (p ++ q) = lastAt H i x p := by
  intro p
  induction p with
  | nil => intro x _; exact stopAt_of_ge x hq
  | cons a p ih =>
    intro x hp
    have ha : K a < key := hp a (List.mem_cons_self a p)
    have hp1 : ∀ b ∈ p, K b < key := fun b hb => hp b (List.mem_cons_of_mem a hb)
    by_cases hi : i < H a
    · simp [stopAt, lastAt, hi, ha, ih a hp1]
    · simp [stopAt, lastAt, hi, ih x hp1]

theorem Linked_append_right {H : Nat → Nat} {F : Nat → Nat → Option Nat} (l2 : List Nat) :
    ∀ l : List Nat, Linked H F (l ++ l2) → Linked H F l2 := by
  intro l
  induction l with
  | nil => exact id
  | cons a l ih => intro h; exact ih h.2

theorem fwd_lastAt {H : Nat → Nat} {F : Nat → Nat → Option Nat} {i : Nat} (q : List Nat) :
    ∀ (l : List Nat) (x : Nat), F x i = firstAt H i (l ++ q) → Linked H F (l ++ q) →
      F (lastAt H i x l) i = firstAt H i q := by
  intro l
  induction l with
  | nil => intro x h _; exact h
  | cons a l ih =>
    intro x h hL
    by_cases ha : i < H a
    · simp only [lastAt, ha, if_true]
      exact ih a (hL.1 i ha) hL.2
    · simp only [lastAt, ha, if_false]
      rw [List.cons_append, firstAt_cons_neg _ ha] at h
      exact ih x h hL.2

/-! ## Splitting the chain at a key -/

theorem exists_split (K : Nat → Int) (key : Int) :
    ∀ c : List Nat, c.Pairwise (fun a b => K a < K b) →
      ∃ p q, c = p ++ q ∧ (∀ a ∈ p, K a < key) ∧ (∀ a ∈ q, key ≤ K a) := by
  intro c
  induction c with
  | nil => intro _; exact ⟨[], [], rfl, by simp, by simp⟩
  | cons a c ih =>
    intro hs
    rw [List.pairwise_cons] at hs
    by_cases ha : K a < key
    · obtain ⟨p, q, h1, h2, h3⟩ := ih hs.2
      refine ⟨a :: p, q, by rw [h1]; rfl, ?_, h3⟩
      intro b hb
      rcases List.mem_cons.mp hb with h | h
      · rw [h]; exact ha
      · exact h2 b h
    · refine ⟨[], a :: c, rfl, by simp, ?_⟩
      intro b hb
      rcases List.mem_cons.mp hb with h | h
      · rw [h]; exact not_lt.mp ha
      · exact le_of_lt (lt_of_le_of_lt (not_lt.mp ha) (hs.1 b h))

/-! ## Consequences of the invariant -/

theorem Inv.nodup {V : Type} {s : SkipList V} {c : List Nat} (h : Inv s c) :
    (0 :: c).Nodup := by
  rw [List.nodup_cons]
  refine ⟨fun h0 => (h.valid 0 h0).1 rfl, ?_⟩
  exact h.sorted.imp fun hab => fun heq => by rw [heq] at hab; exact lt_irrefl _ hab

theorem Inv.length_lt {V : Type} {s : SkipList V} {c : List Nat} (h : Inv s c) :
    c.length < s.mem.length := by
  have hn := h.nodup
  have hsub : (0 :: c).toFinset ⊆ Finset.range s.mem.length := by
    intro a ha
    rw [List.mem_toFinset, List.mem_cons] at ha
    rw [Finset.mem_range]
    rcases ha with h0 | hc
    · rw [h0]
      exact lt_length_of_ht_pos (i := 0) (by rw [h.headHt]; decide)
    · exact (h.valid a hc).2
  have := Finset.card_le_card hsub
  rw [List.toFinset_card_of_nodup hn, Finset.card_range, List.length_cons] at this
  omega

theorem Inv.head_lt {V : Type} {s : SkipList V} {c : List Nat} (h : Inv s c) :
    0 < s.mem.length :=
  lt_length_of_ht_pos (i := 0) (by rw [h.headHt]; decide)

theorem Inv.firstAt_level {V : Type} {s : SkipList V} {c : List Nat} (h : Inv s c)
    {i : Nat} (hi : s.Level ≤ i) {l : List Nat} (hl : ∀ a ∈ l, a ∈ c) :
    firstAt (ht s.mem) i l = none :=
  firstAt_eq_none_iff.mpr fun a ha => le_trans (h.hts a (hl a ha)).2 hi

theorem Inv.firstAt_zero {V : Type} {s : SkipList V} {c : List Nat} (h : Inv s c)
    {l : List Nat} (hl : ∀ a ∈ l, a ∈ c) : firstAt (ht s.mem) 0 l = l.head? := by
  cases l with
  | nil => rfl
  | cons a l =>
    exact firstAt_cons_pos l (h.hts a (hl a (List.mem_cons_self a l))).1

/-- In a well-formed list split at `key`, the walk at level `i` that starts where the
walk at level `i + 1` stopped ends at the last record before the split that has
level `i`. -/
theorem Inv.walk_level {V : Type} {s : SkipList V} {c p q : List Nat} {key : Int}
    (h : Inv s c) (hc : c = p ++ q) (hp : ∀ a ∈ p, keyAt s.mem a < key)
    (hq : ∀ a ∈ q, key ≤ keyAt s.mem a) {i : Nat} (hi : i < MaxLevel) :
    walk s.mem i key s.mem.length (lastAt (ht s.mem) (i + 1) 0 p)
      = some (lastAt (ht s.mem) i 0 p) := by
  obtain ⟨pre, suf, h1, h2⟩ := lastAt_split (ht s.mem) (i + 1) p 0
  generalize hy : lastAt (ht s.mem) (i + 1) 0 p = y at h1
  have hyH : i < ht s.mem y := by
    rcases lastAt_mem (ht s.mem) (i + 1) p 0 with h0 | h0
    · rw [← hy, h0, h.headHt]; exact hi
    · rw [← hy]; omega
  have hLk : Linked (ht s.mem) (fwd s.mem) (y :: (suf ++ q)) := by
    have := h.linked
    rw [hc, ← List.cons_append, h1, List.append_assoc] at this
    exact Linked_append_right _ pre this
  have hsufp : ∀ a ∈ suf, a ∈ p := by
    intro a ha
    have : a ∈ pre ++ y :: suf := List.mem_append_right _ (List.mem_cons_of_mem y ha)
    rw [← h1] at this
    rcases List.mem_cons.mp this with h0 | h0
    · exfalso
      have hn := h.nodup
      rw [hc, ← List.cons_append, h1, List.append_assoc] at hn
      have hn2 := (List.nodup_append.mp hn).2.1
      cases pre with
      | nil =>
        simp only [List.nil_append, List.cons.injEq] at h1
        rw [List.cons_append, List.nodup_cons] at hn2
        exact hn2.1 (List.mem_append_left _ (by rw [← h1.1, ← h0]; exact ha))
      | cons b pre =>
        simp only [List.cons_append, List.cons.injEq] at h1
        have hd := (List.nodup_append.mp hn).2.2
        exact hd (a := 0) (by rw [← h1.1]; exact List.mem_cons_self _ _)
          (List.mem_append_left _ (List.mem_cons_of_mem y (h0 ▸ ha)))
    · exact h0
  have hmem : ∀ a ∈ suf ++ q, a ∈ c := by
    intro a ha
    rw [hc]
    rcases List.mem_append.mp ha with h0 | h0
    · exact List.mem_append_left _ (hsufp a h0)
    · exact List.mem_append_right _ h0
  have hlen : (suf ++ q).length < s.mem.length := by
    have h3 := h.length_lt
    have h4 : (pre ++ y :: suf).length = p.length + 1 := by rw [← h1]; rfl
    rw [hc, List.length_append] at h3
    rw [List.length_append, List.length_cons] at h4
    rw [List.length_append]
    omega
  rw [walk_eq_stopAt s.mem i key (suf ++ q) y s.mem.length hlen hyH
    (fun a ha => (h.valid a (hmem a ha)).2) (hLk.1 i hyH) hLk.2,
    stopAt_append hq suf y (fun a ha => hp a (hsufp a ha))]
  congr 1
  cases pre with
  | nil =>
    simp only [List.nil_append, List.cons.injEq] at h1
    rw [← h1.1, h1.2]
  | cons b pre =>
    simp only [List.cons_append, List.cons.injEq] at h1
    rw [h1.2, lastAt_append]
    simp only [lastAt, hyH, if_true]

theorem Inv.lastAt_level {V : Type} {s : SkipList V} {c p q : List Nat}
    (h : Inv s c) (hc : c = p ++ q) {i : Nat} (hi : s.Level ≤ i) :
    lastAt (ht s.mem) i 0 p = 0 :=
  lastAt_eq_self 0 (h.firstAt_level hi fun _ ha => hc ▸ List.mem_append_left q ha)

theorem Inv.searchLevels_eq {V : Type} {s : SkipList V} {c p q : List Nat} {key : Int}
    (h : Inv s c) (hc : c = p ++ q) (hp : ∀ a ∈ p, keyAt s.mem a < key)
    (hq : ∀ a ∈ q, key ≤ keyAt s.mem a) :
    ∀ n, n ≤ MaxLevel →
      searchLevels s.mem key s.mem.length n (lastAt (ht s.mem) n 0 p)
        = some (lastAt (ht s.mem) 0 0 p) := by
  intro n
  induction n with
  | zero => intro _; rfl
  | succ n ih =>
    intro hn
    simp only [searchLevels, h.walk_level hc hp hq (i := n) hn]
    exact ih (Nat.le_of_succ_le hn)

theorem Inv.updateLevels_eq {V : Type} {s : SkipList V} {c p q : List Nat} {key : Int}
    (h : Inv s c) (hc : c = p ++ q) (hp : ∀ a ∈ p, keyAt s.mem a < key)
    (hq : ∀ a ∈ q, key ≤ keyAt s.mem a) :
    ∀ n, n ≤ MaxLevel → ∀ u : List (Option Nat), u.length = MaxLevel →
      ∃ u1, updateLevels s.mem key s.mem.length n (lastAt (ht s.mem) n 0 p) u
          = some (lastAt (ht s.mem) 0 0 p, u1) ∧ u1.length = MaxLevel ∧
        (∀ i, i < n → u1[i]? = some (some (lastAt (ht s.mem) i 0 p))) ∧
        (∀ i, n ≤ i → u1[i]? = u[i]?) := by
  intro n
  induction n with
  | zero =>
    intro _ u hu
    exact ⟨u, rfl, hu, fun i hi => absurd hi (Nat.not_lt_zero i), fun i _ => rfl⟩
  | succ n ih =>
    intro hn u hu
    have hnu : n < u.length := by rw [hu]; exact hn
    obtain ⟨u1, h1, h2, h3, h4⟩ := ih (Nat.le_of_succ_le hn)
      (u.set n (some (lastAt (ht s.mem) n 0 p))) (by rw [List.length_set]; exact hu)
    refine ⟨u1, ?_, h2, ?_, ?_⟩
    · simp only [updateLevels, h.walk_level hc hp hq (i := n) hn, hnu, if_true]
      exact h1
    · intro i hi
      rcases Nat.lt_succ_iff_lt_or_eq.mp hi with hlt | heq
      · exact h3 i hlt
      · rw [heq, h4 n (le_refl n), List.getElem?_set_self hnu]
    · intro i hi
      rw [h4 i (Nat.le_of_succ_le hi), List.getElem?_set_ne (by omega)]

/-- The update array `Insert` and `Delete` compute on a well-formed list. -/
theorem Inv.update_eq {V : Type} {s : SkipList V} {c p q : List Nat} {key : Int}
    (h : Inv s c) (hc : c = p ++ q) (hp : ∀ a ∈ p, keyAt s.mem a < key)
    (hq : ∀ a ∈ q, key ≤ keyAt s.mem a) :
    ∃ u, updateLevels s.mem key s.mem.length s.Level s.Head (List.replicate MaxLevel none)
          = some (lastAt (ht s.mem) 0 0 p, u) ∧ u.length = MaxLevel ∧
        (∀ i, i < s.Level → u[i]? = some (some (lastAt (ht s.mem) i 0 p))) ∧
        (∀ i, s.Level ≤ i → i < MaxLevel → u[i]? = some none) := by
  obtain ⟨u, h1, h2, h3, h4⟩ := h.updateLevels_eq hc hp hq s.Level h.level
    (List.replicate MaxLevel none) (List.length_replicate _ _)
  rw [h.lastAt_level hc (le_refl _)] at h1
  refine ⟨u, by rw [h.head]; exact h1, h2, h3, ?_⟩
  intro i hi hi2
  rw [h4 i hi, List.getElem?_replicate]
  simp [hi2]

/-- The pointer `x.Forward[0]` read after the descent: the first record at or after the
split. -/
theorem Inv.fwd_pred_zero {V : Type} {s : SkipList V} {c p q : List Nat}
    (h : Inv s c) (hc : c = p ++ q) :
    0 < ht s.mem (lastAt (ht s.mem) 0 0 p) ∧
      fwd s.mem (lastAt (ht s.mem) 0 0 p) 0 = q.head? := by
  constructor
  · rcases lastAt_mem (ht s.mem) 0 p 0 with h0 | h0
    · rw [h0, h.headHt]; decide
    · exact h0.2
  · have hL := h.linked
    rw [hc] at hL
    rw [fwd_lastAt q p 0 (hL.1 0 (by rw [h.headHt]; decide)) hL.2]
    exact h.firstAt_zero fun a ha => hc ▸ List.mem_append_right p ha

/-- The pointer `update[i].Forward[i]` on a well-formed list: the first record at or
after the split that has level `i`. -/
theorem Inv.fwd_pred {V : Type} {s : SkipList V} {c p q : List Nat}
    (h : Inv s c) (hc : c = p ++ q) {i : Nat} (hi : i < MaxLevel) :
    i < ht s.mem (lastAt (ht s.mem) i 0 p) ∧
      fwd s.mem (lastAt (ht s.mem) i 0 p) i = firstAt (ht s.mem) i q := by
  constructor
  · rcases lastAt_mem (ht s.mem) i p 0 with h0 | h0
    · rw [h0, h.headHt]; exact hi
    · exact h0.2
  · have hL := h.linked
    rw [hc] at hL
    exact fwd_lastAt q p 0 (hL.1 i (by rw [h.headHt]; exact hi)) hL.2

/-- What `Search` returns on a well-formed list split at `key`. -/
theorem Inv.search_eq {V : Type} {s : SkipList V} {c p q : List Nat} {key : Int}
    (h : Inv s c) (hc : c = p ++ q) (hp : ∀ a ∈ p, keyAt s.mem a < key)
    (hq : ∀ a ∈ q, key ≤ keyAt s.mem a) :
    Search s key = some (match q with
      | [] => (none, false)
      | y :: _ => if keyAt s.mem y = key then (some y, true) else (none, false)) := by
  have h1 := h.searchLevels_eq hc hp hq s.Level h.level
  rw [h.lastAt_level hc (le_refl _)] at h1
  obtain ⟨h2, h3⟩ := h.fwd_pred_zero hc
  unfold Search
  rw [h.head, h1]
  simp only [get_eq_cell (lt_length_of_ht_pos h2), forward_get_eq_fwd h2, h3]
  cases q with
  | nil => rfl
  | cons y q =>
    have hy : y < s.mem.length :=
      (h.valid y (hc ▸ List.mem_append_right p (List.mem_cons_self y q))).2
    simp only [List.head?_cons, get_eq_cell hy]
    change (if keyAt s.mem y = key then _ else _) = _
    split <;> rfl

theorem chainFrom_eq {V : Type} (mem : List (Element V)) (i : Nat) :
    ∀ (l : List Nat) (x fuel : Nat), l.length < fuel → i < ht mem x →
      (∀ a ∈ l, a < mem.length) → fwd mem x i = firstAt (ht mem) i l →
      Linked (ht mem) (fwd mem) l →
      chainFrom mem i fuel x = some (l.filter fun a => decide (i < ht mem a)) := by
  intro l
  induction l with
  | nil =>
    intro x fuel hf hx _ hF _
    obtain ⟨f, rfl⟩ : ∃ f, fuel = f + 1 := ⟨fuel - 1, by simp at hf; omega⟩
    rw [firstAt_nil] at hF
    simp [chainFrom, get_eq_cell (lt_length_of_ht_pos hx), forward_get_eq_fwd hx, hF]
  | cons a l ih =>
    intro x fuel hf hx hv hF hL
    obtain ⟨f, rfl⟩ : ∃ f, fuel = f + 1 := ⟨fuel - 1, by simp at hf; omega⟩
    by_cases ha : i < ht mem a
    · rw [firstAt_cons_pos l ha] at hF
      have := ih a f (by simp at hf; omega) ha
        (fun b hb => hv b (List.mem_cons_of_mem a hb)) (hL.1 i ha) hL.2
      simp [chainFrom, get_eq_cell (lt_length_of_ht_pos hx), forward_get_eq_fwd hx, hF,
        ha, this]
    · rw [firstAt_cons_neg l ha] at hF
      have := ih x (f + 1) (by simp at hf; omega) hx
        (fun b hb => hv b (List.mem_cons_of_mem a hb)) hF hL.2
      simp [ha, this]

/-- On a well-formed list the chain of level `i` holds the elements with a slot at
level `i`, in level-0 order. -/
theorem Inv.levelChain_eq {V : Type} {s : SkipList V} {c : List Nat} (h : Inv s c)
    {i : Nat} (hi : i < MaxLevel) :
    levelChain s i = some (c.filter fun a => decide (i < ht s.mem a)) := by
  have h0 : i < ht s.mem 0 := by rw [h.headHt]; exact hi
  unfold levelChain
  rw [h.head]
  exact chainFrom_eq s.mem i c 0 s.mem.length h.length_lt h0 (fun a ha => (h.valid a ha).2)
    (h.linked.1 i h0) h.linked.2

/-- On a well-formed list the level-0 chain is the list of all elements. -/
theorem Inv.levelChain_zero {V : Type} {s : SkipList V} {c : List Nat} (h : Inv s c) :
    levelChain s 0 = some c := by
  rw [h.levelChain_eq (by decide)]
  congr 1
  rw [List.filter_eq_self]
  intro a ha
  simpa using (h.hts a ha).1

/-! ## Assignments to the store -/

theorem cell_set {V : Type} (mem : List (Element V)) (p a : Nat) (v : Element V)
    (hp : p < mem.length) : cell (mem.set p v) a = if a = p then v else cell mem a := by
  unfold cell
  rw [List.getElem?_set]
  by_cases h : p = a
  · subst h; simp [hp]
  · have h1 : ¬ a = p := fun h2 => h h2.symm
    simp [h, h1]

theorem length_setFwd {V : Type} (mem : List (Element V)) (p i : Nat) (v : Option Nat) :
    (setFwd mem p i v).length = mem.length := by
  simp [setFwd]

theorem cell_setFwd {V : Type} (mem : List (Element V)) (p i : Nat) (v : Option Nat) (a : Nat) :
    cell (setFwd mem p i v) a
      = if a = p then { cell mem p with Forward := (cell mem p).Forward.set i v }
        else cell mem a := by
  by_cases hp : p < mem.length
  · exact cell_set mem p a _ hp
  · have h1 : setFwd mem p i v = mem := by
      unfold setFwd
      exact List.set_eq_of_length_le (by omega)
    rw [h1]
    by_cases ha : a = p
    · subst ha
      have : mem[a]? = none := List.getElem?_eq_none (by omega)
      simp [cell, this]
    · simp [ha]

theorem ht_setFwd {V : Type} (mem : List (Element V)) (p i : Nat) (v : Option Nat) (a : Nat) :
    ht (setFwd mem p i v) a = ht mem a := by
  unfold ht
  rw [cell_setFwd]
  by_cases ha : a = p
  · subst ha; simp
  · simp [ha]

theorem keyAt_setFwd {V : Type} (mem : List (Element V)) (p i : Nat) (v : Option Nat)
    (a : Nat) : keyAt (setFwd mem p i v) a = keyAt mem a := by
  unfold keyAt
  rw [cell_setFwd]
  by_cases ha : a = p
  · subst ha; simp
  · simp [ha]

theorem valAt_setFwd {V : Type} (mem : List (Element V)) (p i : Nat) (v : Option Nat)
    (a : Nat) : valAt (setFwd mem p i v) a = valAt mem a := by
  unfold valAt
  rw [cell_setFwd]
  by_cases ha : a = p
  · subst ha; simp
  · simp [ha]

theorem fwd_setFwd {V : Type} (mem : List (Element V)) (p i : Nat) (v : Option Nat)
    (hi : i < ht mem p) (a j : Nat) :
    fwd (setFwd mem p i v) a j = if a = p ∧ j = i then v else fwd mem a j := by
  have hi1 : i < (cell mem p).Forward.length := hi
  unfold fwd
  rw [cell_setFwd]
  by_cases ha : a = p
  · subst ha
    by_cases hj : j = i
    · subst hj; simp [List.getElem?_set_self hi1]
    · have hj1 : ¬ i = j := fun h => hj h.symm
      simp [hj, List.getElem?_set_ne hj1]
  · simp [ha]

/-! ## The splice loop of `Insert` -/

theorem spliceStep_eq {V : Type} {u : List (Option Nat)} {e i p : Nat}
    {mem : List (Element V)} (hu : u[i]? = some (some p)) (hp : i < ht mem p)
    (he : i < ht mem e) :
    spliceStep u e i mem
      = some (setFwd (setFwd mem e i (fwd mem p i)) p i (some e)) := by
  have he1 : i < (cell mem e).Forward.length := he
  have hp2 : i < ht (setFwd mem e i (fwd mem p i)) p := by rw [ht_setFwd]; exact hp
  have hp3 : i < (cell (setFwd mem e i (fwd mem p i)) p).Forward.length := hp2
  have hp4 := get_eq_cell (lt_length_of_ht_pos hp2)
  unfold setFwd at hp4
  unfold spliceStep
  simp only [hu, get_eq_cell (lt_length_of_ht_pos hp), forward_get_eq_fwd hp,
    get_eq_cell (lt_length_of_ht_pos he), he1, if_true, hp4]
  unfold setFwd at hp3
  simp only [hp3, if_true]
  rfl

/-- The store after `n` iterations of the splice loop, slot by slot: at each level `j`
below `n` the predecessor `upd j` points at `e` and `e` points where the predecessor
pointed. -/
theorem spliceLoop_eq {V : Type} {u : List (Option Nat)} {e level : Nat} (upd : Nat → Nat)
    {mem : List (Element V)} (hu : ∀ j, j < level → u[j]? = some (some (upd j)))
    (hp : ∀ j, j < level → j < ht mem (upd j)) (he : level ≤ ht mem e) :
    ∀ n, n ≤ level → ∃ mem1, spliceLoop u e n mem = some mem1 ∧
      mem1.length = mem.length ∧ (∀ a, ht mem1 a = ht mem a) ∧
      (∀ a, keyAt mem1 a = keyAt mem a) ∧ (∀ a, valAt mem1 a = valAt mem a) ∧
      ∀ a j, fwd mem1 a j =
        if j < n ∧ a = upd j then some e
        else if j < n ∧ a = e then fwd mem (upd j) j else fwd mem a j := by
  intro n
  induction n with
  | zero =>
    intro _
    exact ⟨mem, rfl, rfl, fun _ => rfl, fun _ => rfl, fun _ => rfl, fun a j => by simp⟩
  | succ n ih =>
    intro hn
    obtain ⟨m1, h1, h2, h3, h4, h5, h6⟩ := ih (Nat.le_of_succ_le hn)
    have hpn : n < ht m1 (upd n) := by rw [h3]; exact hp n hn
    have hen : n < ht m1 e := by rw [h3]; omega
    have hen2 : n < ht (setFwd m1 e n (fwd m1 (upd n) n)) (upd n) := by
      rw [ht_setFwd]; exact hpn
    refine ⟨setFwd (setFwd m1 e n (fwd m1 (upd n) n)) (upd n) n (some e),
      ?_, ?_, ?_, ?_, ?_, ?_⟩
    · simp only [spliceLoop, h1]
      exact spliceStep_eq (hu n hn) hpn hen
    · rw [length_setFwd, length_setFwd, h2]
    · intro a; rw [ht_setFwd, ht_setFwd, h3]
    · intro a; rw [keyAt_setFwd, keyAt_setFwd, h4]
    · intro a; rw [valAt_setFwd, valAt_setFwd, h5]
    · intro a j
      rw [fwd_setFwd _ _ _ _ hen2, fwd_setFwd _ _ _ _ hen, h6, h6]
      by_cases hj : j = n
      · subst hj
        by_cases ha : a = upd j
        · simp [ha]
        · by_cases hae : a = e
          · simp [ha, hae]
          · simp [ha, hae]
      · by_cases hjn : j < n
        · have : j < n + 1 := by omega
          simp [hj, hjn, this]
        · have : ¬ j < n + 1 := by omega
          simp [hj, hjn, this]

/-! ## The unlink loop of `Delete` -/

theorem unlinkStep_eq_some {V : Type} {u : List (Option Nat)} {x i p : Nat}
    {mem : List (Element V)} (hu : u[i]? = some (some p)) (hp : i < ht mem p)
    (hf : fwd mem p i = some x) (hx : i < ht mem x) :
    unlinkStep u x i mem = some (some (setFwd mem p i (fwd mem x i))) := by
  unfold unlinkStep
  simp only [hu, get_eq_cell (lt_length_of_ht_pos hp), forward_get_eq_fwd hp, hf,
    get_eq_cell (lt_length_of_ht_pos hx), forward_get_eq_fwd hx]
  simp [setFwd]

theorem unlinkStep_eq_none {V : Type} {u : List (Option Nat)} {x i p : Nat}
    {mem : List (Element V)} (hu : u[i]? = some (some p)) (hp : i < ht mem p)
    (hf : fwd mem p i ≠ some x) :
    unlinkStep u x i mem = some none := by
  unfold unlinkStep
  simp only [hu, get_eq_cell (lt_length_of_ht_pos hp), forward_get_eq_fwd hp]
  simp [hf]

/-- The store after `n` iterations of the unlink loop that all pass the check, slot by
slot: at each level `j` below `n` the predecessor `upd j` points where `x` pointed. -/
theorem unlinkLoop_eq {V : Type} {u : List (Option Nat)} {x m : Nat} (upd : Nat → Nat)
    {mem : List (Element V)} (hu : ∀ j, j < m → u[j]? = some (some (upd j)))
    (hp : ∀ j, j < m → j < ht mem (upd j)) (hf : ∀ j, j < m → fwd mem (upd j) j = some x)
    (hx : m ≤ ht mem x) :
    ∀ n, n ≤ m → ∃ mem1, unlinkLoop u x n mem = some (mem1, false) ∧
      mem1.length = mem.length ∧ (∀ a, ht mem1 a = ht mem a) ∧
      (∀ a, keyAt mem1 a = keyAt mem a) ∧ (∀ a, valAt mem1 a = valAt mem a) ∧
      ∀ a j, fwd mem1 a j = if j < n ∧ a = upd j then fwd mem x j else fwd mem a j := by
  intro n
  induction n with
  | zero =>
    intro _
    exact ⟨mem, rfl, rfl, fun _ => rfl, fun _ => rfl, fun _ => rfl, fun a j => by simp⟩
  | succ n ih =>
    intro hn
    obtain ⟨m1, h1, h2, h3, h4, h5, h6⟩ := ih (Nat.le_of_succ_le hn)
    have hpn : n < ht m1 (upd n) := by rw [h3]; exact hp n hn
    have hxn : n < ht m1 x := by rw [h3]; omega
    have hfn : fwd m1 (upd n) n = some x := by
      rw [h6]; simp [hf n hn]
    have hfx : fwd m1 x n = fwd mem x n := by
      rw [h6]; simp
    refine ⟨setFwd m1 (upd n) n (fwd m1 x n), ?_, ?_, ?_, ?_, ?_, ?_⟩
    · simp only [unlinkLoop, h1, unlinkStep_eq_some (hu n hn) hpn hfn hxn]
    · rw [length_setFwd, h2]
    · intro a; rw [ht_setFwd, h3]
    · intro a; rw [keyAt_setFwd, h4]
    · intro a; rw [valAt_setFwd, h5]
    · intro a j
      rw [fwd_setFwd _ _ _ _ hpn, hfx, h6]
      by_cases hj : j = n
      · subst hj
        by_cases ha : a = upd j
        · simp [ha]
        · simp [ha]
      · by_cases hjn : j < n
        · have : j < n + 1 := by omega
          simp [hj, hjn, this]
        · have : ¬ j < n + 1 := by omega
          simp [hj, hjn, this]

theorem unlinkLoop_stop {V : Type} {u : List (Option Nat)} {x n : Nat}
    {mem m1 : List (Element V)} (h : unlinkLoop u x n mem = some (m1, true)) :
    ∀ k, unlinkLoop u x (n + k) mem = some (m1, true) := by
  intro k
  induction k with
  | zero => exact h
  | succ k ih =>
    rw [← Nat.add_assoc]
    simp only [unlinkLoop, ih]

/-! ## Allocation -/

theorem cell_append {V : Type} (mem : List (Element V)) (v : Element V) (a : Nat) :
    cell (mem ++ [v]) a = if a = mem.length then v else cell mem a := by
  unfold cell
  by_cases h : a < mem.length
  · have : ¬ a = mem.length := by omega
    rw [List.getElem?_append_left h]; simp [this]
  · by_cases h1 : a = mem.length
    · subst h1; simp
    · have h2 : mem[a]? = none := List.getElem?_eq_none (by omega)
      have h3 : (mem ++ [v])[a]? = none :=
        List.getElem?_eq_none (by rw [List.length_append, List.length_singleton]; omega)
      simp [h1, h2, h3]

theorem fwd_newElement {V : Type} (key : Int) (value : Option V) (level j : Nat) :
    ((newElement key value level).Forward[j]?).getD none = none := by
  simp only [newElement, List.getElem?_replicate]
  split <;> rfl

/-! ## Relinking -/

theorem Linked_congr {H H1 : Nat → Nat} {F F1 : Nat → Nat → Option Nat} :
    ∀ l : List Nat, (∀ a ∈ l, H1 a = H a) → (∀ a ∈ l, ∀ j, j < H a → F1 a j = F a j) →
      Linked H F l → Linked H1 F1 l := by
  intro l
  induction l with
  | nil => intro _ _ _; trivial
  | cons a l ih =>
    intro hH hF hL
    have hl : ∀ b ∈ l, H1 b = H b := fun b hb => hH b (List.mem_cons_of_mem a hb)
    refine ⟨?_, ih hl (fun b hb => hF b (List.mem_cons_of_mem a hb)) hL.2⟩
    intro i hi
    rw [hH a (List.mem_cons_self a l)] at hi
    rw [hF a (List.mem_cons_self a l) i hi, hL.1 i hi, firstAt_congr hl]

theorem lastAt_eq_iff_of_suffix {H : Nat → Nat} {j x a : Nat} {l pre suf : List Nat}
    (hn : (x :: l).Nodup) (hs : x :: l = pre ++ a :: suf) (ha : j < H a) :
    a = lastAt H j x l ↔ firstAt H j suf = none := by
  have hn2 : (a :: suf).Nodup := by
    rw [hs] at hn; exact (List.nodup_append.mp hn).2.1
  have ha2 : a ∉ suf := (List.nodup_cons.mp hn2).1
  cases pre with
  | nil =>
    simp only [List.nil_append, List.cons.injEq] at hs
    rw [hs.1, hs.2]
    exact ⟨fun h => (lastAt_eq_self_iff ha2).mp h.symm,
      fun h => ((lastAt_eq_self_iff ha2).mpr h).symm⟩
  | cons b pre =>
    simp only [List.cons_append, List.cons.injEq] at hs
    rw [hs.2, lastAt_append]
    simp only [lastAt, ha, if_true]
    exact ⟨fun h => (lastAt_eq_self_iff ha2).mp h.symm,
      fun h => ((lastAt_eq_self_iff ha2).mpr h).symm⟩

/-- Splicing `e` in between `l` and `q`: when at each level `j < level` the last record
of `l` with that level is redirected to `e`, and `e` takes over its pointer, the list
`l ++ e :: q` is linked. -/
theorem Linked_insert {H H1 : Nat → Nat} {F F1 : Nat → Nat → Option Nat}
    {level e : Nat} {q : List Nat} (upd : Nat → Nat)
    (hFe : ∀ j, j < level → F1 e j = firstAt H j q) (hHe : H1 e = level)
    (hq : Linked H1 F1 q) (hHq : ∀ a ∈ q, H1 a = H a) :
    ∀ l : List Nat, (∀ a ∈ l, H1 a = H a) →
      (∀ a ∈ l, ∀ j, j < H a → F1 a j = if j < level ∧ a = upd j then some e else F a j) →
      (∀ a suf pre, l = pre ++ a :: suf → ∀ j, j < level → j < H a →
        (a = upd j ↔ firstAt H j suf = none)) →
      Linked H F (l ++ q) → Linked H1 F1 (l ++ e :: q) := by
  intro l
  induction l with
  | nil =>
    intro _ _ _ _
    refine ⟨?_, hq⟩
    intro j hj
    rw [hHe] at hj
    rw [hFe j hj, firstAt_congr hHq]
  | cons a l ih =>
    intro hH hF hC hL
    have hL : Linked H F (a :: (l ++ q)) := hL
    change Linked H1 F1 (a :: (l ++ e :: q))
    have hl : ∀ b ∈ l, H1 b = H b := fun b hb => hH b (List.mem_cons_of_mem a hb)
    refine ⟨?_, ih hl (fun b hb => hF b (List.mem_cons_of_mem a hb))
      (fun b suf pre hs => hC b suf (a :: pre) (by rw [hs]; rfl)) hL.2⟩
    intro j hj
    rw [hH a (List.mem_cons_self a l)] at hj
    rw [hF a (List.mem_cons_self a l) j hj, hL.1 j hj]
    have hcond := hC a l [] rfl j
    cases hfl : firstAt H j l with
    | some y =>
      have h1 : firstAt H1 j l = some y := by rw [firstAt_congr hl]; exact hfl
      rw [firstAt_append_of_some _ hfl, firstAt_append_of_some _ h1]
      have : ¬ (j < level ∧ a = upd j) := by
        intro hh
        have := (hcond hh.1 hj).mp hh.2
        rw [hfl] at this; cases this
      rw [if_neg this]
    | none =>
      have h1 : firstAt H1 j l = none := by rw [firstAt_congr hl]; exact hfl
      rw [firstAt_append_of_none _ hfl, firstAt_append_of_none _ h1]
      by_cases hjl : j < level
      · have hau : a = upd j := (hcond hjl hj).mpr hfl
        rw [if_pos ⟨hjl, hau⟩, firstAt_cons_pos _ (by rw [hHe]; exact hjl)]
      · rw [if_neg (fun hh => hjl hh.1), firstAt_cons_neg _ (by rw [hHe]; exact hjl),
          firstAt_congr hHq]

/-- Unlinking `x` from between `l` and `q`: when at each level `j < H x` the last record
of `l` with that level takes over the pointer of `x`, the list `l ++ q` is linked. -/
theorem Linked_delete {H : Nat → Nat} {F F1 : Nat → Nat → Option Nat}
    {x : Nat} {q : List Nat} (upd : Nat → Nat)
    (hq : Linked H F1 q) (hx : ∀ j, j < H x → F x j = firstAt H j q) :
    ∀ l : List Nat,
      (∀ a ∈ l, ∀ j, j < H a → F1 a j = if j < H x ∧ a = upd j then F x j else F a j) →
      (∀ a suf pre, l = pre ++ a :: suf → ∀ j, j < H x → j < H a →
        (a = upd j ↔ firstAt H j suf = none)) →
      Linked H F (l ++ x :: q) → Linked H F1 (l ++ q) := by
  intro l
  induction l with
  | nil => intro _ _ _; exact hq
  | cons a l ih =>
    intro hF hC hL
    have hL : Linked H F (a :: (l ++ x :: q)) := hL
    change Linked H F1 (a :: (l ++ q))
    refine ⟨?_, ih (fun b hb => hF b (List.mem_cons_of_mem a hb))
      (fun b suf pre hs => hC b suf (a :: pre) (by rw [hs]; rfl)) hL.2⟩
    intro j hj
    rw [hF a (List.mem_cons_self a l) j hj, hL.1 j hj]
    have hcond := hC a l [] rfl j
    cases hfl : firstAt H j l with
    | some y =>
      rw [firstAt_append_of_some _ hfl, firstAt_append_of_some _ hfl]
      have : ¬ (j < H x ∧ a = upd j) := by
        intro hh
        have := (hcond hh.1 hj).mp hh.2
        rw [hfl] at this; cases this
      rw [if_neg this]
    | none =>
      rw [firstAt_append_of_none _ hfl, firstAt_append_of_none _ hfl]
      by_cases hjx : j < H x
      · have hau : a = upd j := (hcond hjx hj).mpr hfl
        rw [if_pos ⟨hjx, hau⟩, hx j hjx]
      · rw [if_neg (fun hh => hjx hh.1), firstAt_cons_neg _ hjx]

/-! ## `randomLevel` -/

theorem randomLevelLoop_bounds (rnd : Nat → Bool) :
    ∀ fuel level, level ≤ MaxLevel →
      level ≤ randomLevelLoop rnd fuel level ∧ randomLevelLoop rnd fuel level ≤ MaxLevel := by
  intro fuel
  induction fuel with
  | zero => intro level h; exact ⟨le_refl _, h⟩
  | succ fuel ih =>
    intro level h
    unfold randomLevelLoop
    split
    · rename_i hc
      simp only [Bool.and_eq_true, decide_eq_true_eq] at hc
      have := ih (level + 1) hc.2
      exact ⟨by omega, this.2⟩
    · exact ⟨le_refl _, h⟩

theorem randomLevel_bounds (rnd : Nat → Bool) :
    1 ≤ randomLevel rnd ∧ randomLevel rnd ≤ MaxLevel :=
  randomLevelLoop_bounds rnd MaxLevel 1 (by decide)

/-! ## `Insert` on a well-formed list -/

theorem Inv.mono_level {V : Type} {s : SkipList V} {c : List Nat} (h : Inv s c) {L : Nat}
    (h1 : s.Level ≤ L) (h2 : L ≤ MaxLevel) : Inv { s with Level := L } c :=
  { head := h.head
    headHt := h.headHt
    level := h2
    valid := h.valid
    hts := fun a ha => ⟨(h.hts a ha).1, le_trans (h.hts a ha).2 h1⟩
    sorted := h.sorted
    linked := h.linked }

theorem Inv.pred_mem {V : Type} {s : SkipList V} {c p q : List Nat} (h : Inv s c)
    (hc : c = p ++ q) (j : Nat) :
    lastAt (ht s.mem) j 0 p ∈ 0 :: p ∧ lastAt (ht s.mem) j 0 p < s.mem.length ∧
      lastAt (ht s.mem) j 0 p ∉ q := by
  have hm : lastAt (ht s.mem) j 0 p ∈ 0 :: p := by
    rcases lastAt_mem (ht s.mem) j p 0 with h0 | h0
    · rw [h0]; exact List.mem_cons_self 0 p
    · exact List.mem_cons_of_mem 0 h0.1
  refine ⟨hm, ?_, ?_⟩
  · rcases List.mem_cons.mp hm with h0 | h0
    · rw [h0]; exact h.head_lt
    · exact (h.valid _ (hc ▸ List.mem_append_left q h0)).2
  · have hn := h.nodup
    rw [hc, ← List.cons_append] at hn
    exact fun hq => (List.nodup_append.mp hn).2.2 hm hq

/-- The tail of `Insert` on a well-formed list split at a key it does not hold: it
returns the fresh address, and the store it leaves is described slot by slot. -/
theorem Inv.insertAt_eq {V : Type} {t : SkipList V} {c p q : List Nat} {key : Int}
    (h : Inv t c) (hc : c = p ++ q) (hp : ∀ a ∈ p, keyAt t.mem a < key)
    (hq : ∀ a ∈ q, key < keyAt t.mem a) (value : Option V) {level : Nat}
    (hl1 : 1 ≤ level) (hl2 : level ≤ t.Level) {u : List (Option Nat)}
    (hu : ∀ j, j < level → u[j]? = some (some (lastAt (ht t.mem) j 0 p))) :
    ∃ mem1, insertAt t key value level u
        = some ({ t with Len := t.Len + 1, mem := mem1 }, some t.mem.length) ∧
      mem1.length = t.mem.length + 1 ∧
      (∀ a, ht mem1 a = if a = t.mem.length then level else ht t.mem a) ∧
      (∀ a, keyAt mem1 a = if a = t.mem.length then key else keyAt t.mem a) ∧
      (∀ a, valAt mem1 a = if a = t.mem.length then value else valAt t.mem a) ∧
      (∀ a j, fwd mem1 a j =
        if j < level ∧ a = lastAt (ht t.mem) j 0 p then some t.mem.length
        else if a = t.mem.length then
          (if j < level then firstAt (ht t.mem) j q else none)
        else fwd t.mem a j) ∧
      Inv { t with Len := t.Len + 1, mem := mem1 } (p ++ t.mem.length :: q) := by
  have hlev : ∀ j, j < level → j < MaxLevel := fun j hj =>
    lt_of_lt_of_le hj (le_trans hl2 h.level)
  have hne : ∀ j, lastAt (ht t.mem) j 0 p ≠ t.mem.length := fun j =>
    Nat.ne_of_lt (h.pred_mem hc j).2.1
  have hcell := cell_append t.mem (newElement key value level)
  have hH0 : ∀ a, ht (t.mem ++ [newElement key value level]) a
      = if a = t.mem.length then level else ht t.mem a := by
    intro a; unfold ht; rw [hcell]
    split
    · simp [newElement]
    · rfl
  have hF0 : ∀ a j, fwd (t.mem ++ [newElement key value level]) a j
      = if a = t.mem.length then none else fwd t.mem a j := by
    intro a j; unfold fwd; rw [hcell]
    split
    · exact fwd_newElement key value level j
    · rfl
  obtain ⟨mem1, h1, h2, h3, h4, h5, h6⟩ :=
    @spliceLoop_eq V u t.mem.length level
      (fun j => lastAt (ht t.mem) j 0 p) (t.mem ++ [newElement key value level]) hu
      (fun j hj => by rw [hH0, if_neg (hne j)]; exact (h.fwd_pred hc (hlev j hj)).1)
      (by rw [hH0, if_pos rfl]) level (le_refl _)
  have hH1 : ∀ a, ht mem1 a = if a = t.mem.length then level else ht t.mem a := by
    intro a; rw [h3, hH0]
  have hK1 : ∀ a, keyAt mem1 a = if a = t.mem.length then key else keyAt t.mem a := by
    intro a; rw [h4]; unfold keyAt; rw [hcell]
    split <;> rfl
  have hV1 : ∀ a, valAt mem1 a = if a = t.mem.length then value else valAt t.mem a := by
    intro a; rw [h5]; unfold valAt; rw [hcell]
    split <;> rfl
  have hF1 : ∀ a j, fwd mem1 a j =
      if j < level ∧ a = lastAt (ht t.mem) j 0 p then some t.mem.length
      else if a = t.mem.length then
        (if j < level then firstAt (ht t.mem) j q else none)
      else fwd t.mem a j := by
    intro a j
    rw [h6]
    by_cases hj : j < level
    · by_cases ha : a = lastAt (ht t.mem) j 0 p
      · simp [hj, ha]
      · by_cases hae : a = t.mem.length
        · simp only [hj, ha, hae, and_false, and_true, if_true, if_false]
          rw [hF0, if_neg (hne j)]
          have := (h.fwd_pred hc (hlev j hj)).2
          simp only [hj, this, hae ▸ ha, and_false, if_false, if_true]
        · simp only [hj, ha, hae, and_false, if_false]
          rw [hF0, if_neg hae]
    · simp only [hj, false_and, if_false]
      rw [hF0]
  have hlt : ∀ a ∈ c, a ≠ t.mem.length := fun a ha => Nat.ne_of_lt (h.valid a ha).2
  have hpc : ∀ a ∈ p, a ∈ c := fun a ha => hc ▸ List.mem_append_left q ha
  have hqc : ∀ a ∈ q, a ∈ c := fun a ha => hc ▸ List.mem_append_right p ha
  have h0e : (0 : Nat) ≠ t.mem.length := Nat.ne_of_lt h.head_lt
  have hsorted := h.sorted
  rw [hc, List.pairwise_append] at hsorted
  have hLq : Linked (ht t.mem) (fwd t.mem) q := by
    have := h.linked
    rw [hc, ← List.cons_append] at this
    exact Linked_append_right q _ this
  refine ⟨mem1, ?_, ?_, hH1, hK1, hV1, hF1, ?_⟩
  · unfold insertAt
    simp only [h1]
  · rw [h2, List.length_append, List.length_singleton]
  · refine
      { head := h.head
        headHt := by
          show ht mem1 0 = MaxLevel
          rw [hH1, if_neg h0e]; exact h.headHt
        level := h.level
        valid := ?_
        hts := ?_
        sorted := ?_
        linked := ?_ }
    · intro a ha
      show a ≠ 0 ∧ a < mem1.length
      rw [h2, List.length_append, List.length_singleton]
      rcases List.mem_append.mp ha with h7 | h7
      · have := h.valid a (hpc a h7); exact ⟨this.1, by omega⟩
      · rcases List.mem_cons.mp h7 with h8 | h8
        · rw [h8]; exact ⟨fun h9 => h0e h9.symm, by omega⟩
        · have := h.valid a (hqc a h8); exact ⟨this.1, by omega⟩
    · intro a ha
      show 1 ≤ ht mem1 a ∧ ht mem1 a ≤ t.Level
      rw [hH1]
      rcases List.mem_append.mp ha with h7 | h7
      · rw [if_neg (hlt a (hpc a h7))]; exact h.hts a (hpc a h7)
      · rcases List.mem_cons.mp h7 with h8 | h8
        · rw [if_pos h8]; exact ⟨hl1, hl2⟩
        · rw [if_neg (hlt a (hqc a h8))]; exact h.hts a (hqc a h8)
    · show List.Pairwise (fun a b => keyAt mem1 a < keyAt mem1 b) (p ++ t.mem.length :: q)
      have hKc : ∀ a ∈ c, keyAt mem1 a = keyAt t.mem a := fun a ha => by
        rw [hK1, if_neg (hlt a ha)]
      have hKe : keyAt mem1 t.mem.length = key := by rw [hK1, if_pos rfl]
      rw [List.pairwise_append, List.pairwise_cons]
      refine ⟨?_, ⟨?_, ?_⟩, ?_⟩
      · exact (hsorted.1.imp_of_mem (S := fun a b => keyAt mem1 a < keyAt mem1 b))
          fun {a b} ha hb hab => by
            show keyAt mem1 a < keyAt mem1 b
            rw [hKc a (hpc a ha), hKc b (hpc b hb)]; exact hab
      · intro b hb
        rw [hKe, hKc b (hqc b hb)]; exact hq b hb
      · exact (hsorted.2.1.imp_of_mem (S := fun a b => keyAt mem1 a < keyAt mem1 b))
          fun {a b} ha hb hab => by
            show keyAt mem1 a < keyAt mem1 b
            rw [hKc a (hqc a ha), hKc b (hqc b hb)]; exact hab
      · intro a ha b hb
        rw [hKc a (hpc a ha)]
        rcases List.mem_cons.mp hb with h8 | h8
        · rw [h8, hKe]; exact hp a ha
        · rw [hKc b (hqc b h8)]; exact hsorted.2.2 a ha b h8
    · show Linked (ht mem1) (fwd mem1) (0 :: (p ++ t.mem.length :: q))
      have h0p : ∀ a ∈ 0 :: p, a ≠ t.mem.length := by
        intro a ha
        rcases List.mem_cons.mp ha with h8 | h8
        · rw [h8]; exact h0e
        · exact hlt a (hpc a h8)
      have hnd : (0 :: p).Nodup := by
        have := h.nodup
        rw [hc, ← List.cons_append] at this
        exact (List.nodup_append.mp this).1
      have hHq : ∀ a ∈ q, ht mem1 a = ht t.mem a := fun a ha => by
        rw [hH1, if_neg (hlt a (hqc a ha))]
      rw [← List.cons_append]
      refine @Linked_insert (ht t.mem) _ (fwd t.mem) _ level _ _
        (fun j => lastAt (ht t.mem) j 0 p) ?_ (by rw [hH1, if_pos rfl]) ?_ hHq (0 :: p)
        ?_ ?_ ?_ (by rw [List.cons_append, ← hc]; exact h.linked)
      · intro j hj
        have hnu : ¬ (j < level ∧ t.mem.length = lastAt (ht t.mem) j 0 p) := fun hh =>
          hne j hh.2.symm
        rw [hF1, if_neg hnu, if_pos rfl, if_pos hj]
      · refine Linked_congr q hHq ?_ hLq
        intro a ha j _
        have hnu : ¬ (j < level ∧ a = lastAt (ht t.mem) j 0 p) := fun hh =>
          (h.pred_mem hc j).2.2 (hh.2 ▸ ha)
        rw [hF1, if_neg hnu, if_neg (hlt a (hqc a ha))]
      · intro a ha
        rw [hH1, if_neg (h0p a ha)]
      · intro a ha j _
        rw [hF1]
        by_cases hh : j < level ∧ a = lastAt (ht t.mem) j 0 p
        · rw [if_pos hh, if_pos hh]
        · rw [if_neg hh, if_neg hh, if_neg (h0p a ha)]
      · intro a suf pre hs j _ hja
        exact lastAt_eq_iff_of_suffix hnd hs hja

/-- `Insert` on a well-formed list that does not hold the key: the call returns the
fresh address `s.mem.length`; the list it leaves is well formed, with the new element
between the smaller and the larger keys, and is described field by field. -/
theorem Inv.insert_absent {V : Type} {s : SkipList V} {c p q : List Nat} {key : Int}
    (h : Inv s c) (hc : c = p ++ q) (hp : ∀ a ∈ p, keyAt s.mem a < key)
    (hq : ∀ a ∈ q, key < keyAt s.mem a) (value : Option V) (rnd : Nat → Bool) :
    ∃ s1, Insert s key value rnd = some (s1, some s.mem.length) ∧
      Inv s1 (p ++ s.mem.length :: q) ∧
      s1.Len = s.Len + 1 ∧
      s1.Level = (if s.Level < randomLevel rnd then s.Level + 1 else s.Level) ∧
      s1.mem.length = s.mem.length + 1 ∧
      (∀ a, ht s1.mem a = if a = s.mem.length then
          (if s.Level < randomLevel rnd then s.Level + 1 else randomLevel rnd)
        else ht s.mem a) ∧
      (∀ a, keyAt s1.mem a = if a = s.mem.length then key else keyAt s.mem a) ∧
      (∀ a, valAt s1.mem a = if a = s.mem.length then value else valAt s.mem a) ∧
      (∀ a j, fwd s1.mem a j =
        if j < (if s.Level < randomLevel rnd then s.Level + 1 else randomLevel rnd) ∧
            a = lastAt (ht s.mem) j 0 p then some s.mem.length
        else if a = s.mem.length then
          (if j < (if s.Level < randomLevel rnd then s.Level + 1 else randomLevel rnd)
            then firstAt (ht s.mem) j q else none)
        else fwd s.mem a j) := by
  have hq1 : ∀ a ∈ q, key ≤ keyAt s.mem a := fun a ha => le_of_lt (hq a ha)
  obtain ⟨u, hu1, hu2, hu3, _⟩ := h.update_eq hc hp hq1
  obtain ⟨hx1, hx2⟩ := h.fwd_pred_zero hc
  obtain ⟨hr1, hr2⟩ := randomLevel_bounds rnd
  have hnew : Insert s key value rnd = insertNew s key value rnd u := by
    unfold Insert
    simp only [hu1, get_eq_cell (lt_length_of_ht_pos hx1), forward_get_eq_fwd hx1, hx2]
    cases q with
    | nil => rfl
    | cons y q =>
      have hy : y < s.mem.length :=
        (h.valid y (hc ▸ List.mem_append_right p (List.mem_cons_self y q))).2
      have hk : ¬ (cell s.mem y).Key = key :=
        fun hk => lt_irrefl key (by
          have := hq y (List.mem_cons_self y q)
          unfold keyAt at this
          rw [hk] at this; exact this)
      simp only [List.head?_cons, get_eq_cell hy, hk, if_false]
  rw [hnew]
  unfold insertNew
  by_cases hg : s.Level < randomLevel rnd
  · have hL : s.Level + 1 ≤ MaxLevel := by omega
    have hinv := h.mono_level (L := s.Level + 1) (Nat.le_succ _) hL
    have hu4 : ∀ j, j < s.Level + 1 →
        (u.set s.Level (some s.Head))[j]? = some (some (lastAt (ht s.mem) j 0 p)) := by
      intro j hj
      rcases Nat.lt_succ_iff_lt_or_eq.mp hj with hlt | heq
      · rw [List.getElem?_set_ne (by omega)]; exact hu3 j hlt
      · rw [heq, List.getElem?_set_self (by rw [hu2]; omega), h.head,
          h.lastAt_level hc (le_refl _)]
    obtain ⟨mem1, h1, h2, h3, h4, h5, h6, h7⟩ :=
      hinv.insertAt_eq hc hp hq value (Nat.succ_le_succ (Nat.zero_le _)) (le_refl _) hu4
    have hlen : s.Level < u.length := by rw [hu2]; omega
    refine ⟨{ s with Level := s.Level + 1, Len := s.Len + 1, mem := mem1 }, ?_, h7, rfl,
      ?_, h2, ?_, h4, h5, ?_⟩
    · simp only [gt_iff_lt, hg, hlen, if_true]; exact h1
    · simp only [hg, if_true]
    · simp only [hg, if_true]; exact h3
    · simp only [hg, if_true]; exact h6
  · obtain ⟨mem1, h1, h2, h3, h4, h5, h6, h7⟩ :=
      h.insertAt_eq hc hp hq value hr1 (not_lt.mp hg)
        (fun j hj => hu3 j (lt_of_lt_of_le hj (not_lt.mp hg)))
    refine ⟨{ s with Len := s.Len + 1, mem := mem1 }, ?_, h7, rfl, ?_, h2, ?_, h4, h5, ?_⟩
    · simp only [gt_iff_lt, hg, if_false]; exact h1
    · simp only [hg, if_false]
    · simp only [hg, if_false]; exact h3
    · simp only [hg, if_false]; exact h6

/-- `Insert` on a well-formed list that holds the key at `y`: the call overwrites the
value of `y` and returns `y`; nothing else changes. -/
theorem Inv.insert_present {V : Type} {s : SkipList V} {c p q : List Nat} {key : Int}
    {y : Nat} (h : Inv s c) (hc : c = p ++ y :: q) (hp : ∀ a ∈ p, keyAt s.mem a < key)
    (hy : keyAt s.mem y = key) (hq : ∀ a ∈ q, key < keyAt s.mem a)
    (value : Option V) (rnd : Nat → Bool) :
    ∃ s1, Insert s key value rnd = some (s1, some y) ∧ Inv s1 c ∧
      s1.Len = s.Len ∧ s1.Level = s.Level ∧ s1.mem.length = s.mem.length ∧
      (∀ a, ht s1.mem a = ht s.mem a) ∧ (∀ a, keyAt s1.mem a = keyAt s.mem a) ∧
      (∀ a, valAt s1.mem a = if a = y then value else valAt s.mem a) ∧
      (∀ a j, fwd s1.mem a j = fwd s.mem a j) := by
  have hq1 : ∀ a ∈ y :: q, key ≤ keyAt s.mem a := by
    intro a ha
    rcases List.mem_cons.mp ha with h1 | h1
    · rw [h1, hy]
    · exact le_of_lt (hq a h1)
  obtain ⟨u, hu1, _, _, _⟩ := h.update_eq hc hp hq1
  obtain ⟨hx1, hx2⟩ := h.fwd_pred_zero hc
  have hyl : y < s.mem.length :=
    (h.valid y (hc ▸ List.mem_append_right p (List.mem_cons_self y q))).2
  have hk : (cell s.mem y).Key = key := hy
  have hcell := fun a => cell_set s.mem y a { cell s.mem y with Value := value } hyl
  have hH : ∀ a, ht (s.mem.set y { cell s.mem y with Value := value }) a = ht s.mem a := by
    intro a; unfold ht; rw [hcell]
    split
    · rename_i ha; rw [ha]
    · rfl
  have hK : ∀ a, keyAt (s.mem.set y { cell s.mem y with Value := value }) a
      = keyAt s.mem a := by
    intro a; unfold keyAt; rw [hcell]
    split
    · rename_i ha; rw [ha]
    · rfl
  have hF : ∀ a j, fwd (s.mem.set y { cell s.mem y with Value := value }) a j
      = fwd s.mem a j := by
    intro a j; unfold fwd; rw [hcell]
    split
    · rename_i ha; rw [ha]
    · rfl
  refine ⟨{ s with mem := s.mem.set y { cell s.mem y with Value := value } }, ?_, ?_, rfl,
    rfl, List.length_set _ _ _, hH, hK, ?_, hF⟩
  · unfold Insert
    simp only [hu1, get_eq_cell (lt_length_of_ht_pos hx1), forward_get_eq_fwd hx1, hx2,
      List.head?_cons, get_eq_cell hyl, hk, if_true]
  · exact
      { head := h.head
        headHt := (hH 0).trans h.headHt
        level := h.level
        valid := fun a ha => ⟨(h.valid a ha).1, by
          show a < (s.mem.set y _).length
          rw [List.length_set]; exact (h.valid a ha).2⟩
        hts := fun a ha => by
          show 1 ≤ ht (s.mem.set y _) a ∧ ht (s.mem.set y _) a ≤ s.Level
          rw [hH]; exact h.hts a ha
        sorted := h.sorted.imp (S := fun a b =>
            keyAt (s.mem.set y { cell s.mem y with Value := value }) a
              < keyAt (s.mem.set y { cell s.mem y with Value := value }) b)
          fun {a b} hab => by
            show keyAt (s.mem.set y _) a < keyAt (s.mem.set y _) b
            rw [hK, hK]; exact hab
        linked := Linked_congr (0 :: c) (fun a _ => hH a) (fun a _ j _ => hF a j) h.linked }
  · intro a; unfold valAt; rw [hcell]
    split <;> rfl

/-! ## `Delete` on a well-formed list -/

/-- `Delete` on a well-formed list that does not hold the key: the list is returned
as it was, and the returned pointer is `x`, the level-0 successor the descent ended
at (the first element with a larger key, or nil when there is none). -/
theorem Inv.delete_absent {V : Type} {s : SkipList V} {c p q : List Nat} {key : Int}
    (h : Inv s c) (hc : c = p ++ q) (hp : ∀ a ∈ p, keyAt s.mem a < key)
    (hq : ∀ a ∈ q, key < keyAt s.mem a) :
    Delete s key = some (s, q.head?) := by
  have hq1 : ∀ a ∈ q, key ≤ keyAt s.mem a := fun a ha => le_of_lt (hq a ha)
  obtain ⟨u, hu1, _, _, _⟩ := h.update_eq hc hp hq1
  obtain ⟨hx1, hx2⟩ := h.fwd_pred_zero hc
  unfold Delete
  simp only [hu1, get_eq_cell (lt_length_of_ht_pos hx1), forward_get_eq_fwd hx1, hx2]
  cases q with
  | nil => rfl
  | cons y q =>
    have hy : y < s.mem.length :=
      (h.valid y (hc ▸ List.mem_append_right p (List.mem_cons_self y q))).2
    have hk : ¬ (cell s.mem y).Key = key :=
      fun hk => lt_irrefl key (by
        have := hq y (List.mem_cons_self y q)
        unfold keyAt at this
        rw [hk] at this; exact this)
    simp only [List.head?_cons, get_eq_cell hy, hk, if_false]

/-- `Delete` on a well-formed list that holds the key at `x`: the element is unlinked
from each of its levels and the list stays well formed.  When `x` has as many levels as
the list, the loop runs to its end, `Len` is decremented and `x` is returned; when it
has fewer, the check at level `ht x` fails, and the call returns nil with `Len` as it
was. -/
theorem Inv.delete_present {V : Type} {s : SkipList V} {c p q : List Nat} {key : Int}
    {x : Nat} (h : Inv s c) (hc : c = p ++ x :: q) (hp : ∀ a ∈ p, keyAt s.mem a < key)
    (hx : keyAt s.mem x = key) (hq : ∀ a ∈ q, key < keyAt s.mem a) :
    ∃ s1, Delete s key = some (s1, if ht s.mem x = s.Level then some x else none) ∧
      Inv s1 (p ++ q) ∧
      s1.Len = (if ht s.mem x = s.Level then s.Len - 1 else s.Len) ∧
      s1.Level = s.Level ∧ s1.mem.length = s.mem.length ∧
      (∀ a, ht s1.mem a = ht s.mem a) ∧ (∀ a, keyAt s1.mem a = keyAt s.mem a) ∧
      (∀ a, valAt s1.mem a = valAt s.mem a) ∧
      (∀ a j, fwd s1.mem a j =
        if j < ht s.mem x ∧ a = lastAt (ht s.mem) j 0 p then fwd s.mem x j
        else fwd s.mem a j) := by
  have hq1 : ∀ a ∈ x :: q, key ≤ keyAt s.mem a := by
    intro a ha
    rcases List.mem_cons.mp ha with h1 | h1
    · rw [h1, hx]
    · exact le_of_lt (hq a h1)
  obtain ⟨u, hu1, _, hu3, _⟩ := h.update_eq hc hp hq1
  obtain ⟨hx1, hx2⟩ := h.fwd_pred_zero hc
  have hxc : x ∈ c := hc ▸ List.mem_append_right p (List.mem_cons_self x q)
  have hxl : x < s.mem.length := (h.valid x hxc).2
  have hk : (cell s.mem x).Key = key := hx
  obtain ⟨hm1, hm2⟩ := h.hts x hxc
  have hLx : Linked (ht s.mem) (fwd s.mem) (x :: q) := by
    have := h.linked
    rw [hc, ← List.cons_append] at this
    exact Linked_append_right _ _ this
  have hnd := h.nodup
  rw [hc, ← List.cons_append] at hnd
  have hxq : x ∉ q := (List.nodup_cons.mp (List.nodup_append.mp hnd).2.1).1
  have hfu : ∀ j, j < ht s.mem x →
      fwd s.mem (lastAt (ht s.mem) j 0 p) j = some x := by
    intro j hj
    rw [(h.fwd_pred hc (lt_of_lt_of_le hj (le_trans hm2 h.level))).2, firstAt_cons_pos _ hj]
  obtain ⟨mem1, h1, h2, h3, h4, h5, h6⟩ :=
    @unlinkLoop_eq V u x (ht s.mem x) (fun j => lastAt (ht s.mem) j 0 p)
      s.mem (fun j hj => hu3 j (lt_of_lt_of_le hj hm2))
      (fun j hj => (h.fwd_pred hc (lt_of_lt_of_le hj (le_trans hm2 h.level))).1)
      hfu (le_refl _) (ht s.mem x) (le_refl _)
  have hinv : ∀ n : Int, Inv ({ s with Len := n, mem := mem1 } : SkipList V) (p ++ q) := by
    intro n
    have hsub : ∀ a ∈ p ++ q, a ∈ c := by
      intro a ha
      rw [hc]
      rcases List.mem_append.mp ha with h7 | h7
      · exact List.mem_append_left _ h7
      · exact List.mem_append_right _ (List.mem_cons_of_mem x h7)
    refine
      { head := h.head
        headHt := (h3 0).trans h.headHt
        level := h.level
        valid := fun a ha => ⟨(h.valid a (hsub a ha)).1, by
          show a < mem1.length
          rw [h2]; exact (h.valid a (hsub a ha)).2⟩
        hts := fun a ha => by
          show 1 ≤ ht mem1 a ∧ ht mem1 a ≤ s.Level
          rw [h3]; exact h.hts a (hsub a ha)
        sorted := ?_
        linked := ?_ }
    · have hs := h.sorted
      rw [hc] at hs
      have hs2 := hs.sublist
        (List.Sublist.append_left (List.sublist_cons_self x q) p)
      exact hs2.imp (S := fun a b => keyAt mem1 a < keyAt mem1 b) fun {a b} hab => by
        show keyAt mem1 a < keyAt mem1 b
        rw [h4, h4]; exact hab
    · show Linked (ht mem1) (fwd mem1) (0 :: (p ++ q))
      refine Linked_congr (H := ht s.mem) (F := fwd mem1) _ (fun a _ => h3 a)
        (fun _ _ _ _ => rfl) ?_
      rw [← List.cons_append]
      refine Linked_delete (F := fwd s.mem) (x := x)
        (fun j => lastAt (ht s.mem) j 0 p) ?_ (fun j hj => hLx.1 j hj) (0 :: p)
        (fun a _ j _ => h6 a j) ?_ (by rw [List.cons_append, ← hc]; exact h.linked)
      · refine Linked_congr q (fun _ _ => rfl) ?_ hLx.2
        intro a ha j _
        have hnu : ¬ (j < ht s.mem x ∧ a = lastAt (ht s.mem) j 0 p) := fun hh =>
          (h.pred_mem hc j).2.2 (hh.2 ▸ List.mem_cons_of_mem x ha)
        rw [h6, if_neg hnu]
      · intro a suf pre hs j _ hja
        exact lastAt_eq_iff_of_suffix (List.nodup_append.mp hnd).1 hs hja
  have hpre : ∀ m1 b, unlinkLoop u x s.Level s.mem = some (m1, b) →
      Delete s key = some (if b then ({ s with mem := m1 }, none)
        else ({ s with Len := s.Len - 1, mem := m1 }, some x)) := by
    intro m1 b hr
    unfold Delete
    simp only [hu1, get_eq_cell (lt_length_of_ht_pos hx1), forward_get_eq_fwd hx1, hx2,
      List.head?_cons, get_eq_cell hxl, hk, if_true, hr]
    cases b <;> rfl
  by_cases hfull : ht s.mem x = s.Level
  · refine ⟨{ s with Len := s.Len - 1, mem := mem1 }, ?_, hinv _, ?_, rfl, h2, h3, h4, h5, h6⟩
    · rw [hpre mem1 false (by rw [← hfull]; exact h1), if_pos hfull]; rfl
    · rw [if_pos hfull]
  · have hlt : ht s.mem x < s.Level := lt_of_le_of_ne hm2 hfull
    have hstop : unlinkLoop u x (ht s.mem x + 1) s.mem = some (mem1, true) := by
      have hpm := (h.fwd_pred hc (lt_of_lt_of_le hlt h.level))
      have hne : fwd mem1 (lastAt (ht s.mem) (ht s.mem x) 0 p) (ht s.mem x) ≠ some x := by
        rw [h6, if_neg (fun hh => lt_irrefl _ hh.1), hpm.2,
          firstAt_cons_neg _ (lt_irrefl _)]
        intro hh
        exact hxq (firstAt_some hh).1
      simp only [unlinkLoop, h1,
        unlinkStep_eq_none (hu3 _ hlt) (by rw [h3]; exact hpm.1) hne]
    have hall := unlinkLoop_stop hstop (s.Level - (ht s.mem x + 1))
    rw [show ht s.mem x + 1 + (s.Level - (ht s.mem x + 1)) = s.Level by omega] at hall
    refine ⟨{ s with Len := s.Len, mem := mem1 }, ?_, hinv _, ?_, rfl, h2, h3, h4, h5, h6⟩
    · rw [hpre mem1 true hall, if_neg hfull]; rfl
    · rw [if_neg hfull]

/-! ## Every reachable list is well formed -/

theorem exists_split3 (K : Nat → Int) (key : Int) (c : List Nat)
    (hs : c.Pairwise (fun a b => K a < K b)) :
    (∃ p q, c = p ++ q ∧ (∀ a ∈ p, K a < key) ∧ (∀ a ∈ q, key < K a)) ∨
    (∃ p y q, c = p ++ y :: q ∧ (∀ a ∈ p, K a < key) ∧ K y = key ∧ (∀ a ∈ q, key < K a)) := by
  obtain ⟨p, q, h1, h2, h3⟩ := exists_split K key c hs
  cases q with
  | nil => exact Or.inl ⟨p, [], h1, h2, by simp⟩
  | cons y q =>
    rw [h1, List.pairwise_append, List.pairwise_cons] at hs
    have hy : key ≤ K y := h3 y (List.mem_cons_self y q)
    rcases lt_or_eq_of_le hy with hlt | heq
    · left
      refine ⟨p, y :: q, h1, h2, ?_⟩
      intro a ha
      rcases List.mem_cons.mp ha with h4 | h4
      · rw [h4]; exact hlt
      · exact lt_trans hlt (hs.2.1.1 a h4)
    · right
      exact ⟨p, y, q, h1, h2, heq.symm, fun a ha => heq ▸ hs.2.1.1 a ha⟩

theorem New_inv {V : Type} : Inv (New : SkipList V) [] :=
  { head := rfl
    headHt := rfl
    level := Nat.zero_le _
    valid := fun a ha => absurd ha (List.not_mem_nil a)
    hts := fun a ha => absurd ha (List.not_mem_nil a)
    sorted := List.Pairwise.nil
    linked := ⟨fun i _ => by
      show ((List.replicate MaxLevel (none : Option Nat))[i]?).getD none = none
      rw [List.getElem?_replicate]; split <;> rfl, trivial⟩ }

/-- Every list built by `New`, `Insert` and `Delete` is well formed. -/
theorem Reachable.inv {V : Type} {s : SkipList V} (hr : Reachable s) : ∃ c, Inv s c := by
  induction hr with
  | new => exact ⟨[], New_inv⟩
  | insert s s1 key value rnd r _ hi ih =>
    obtain ⟨c, hinv⟩ := ih
    rcases exists_split3 (keyAt s.mem) key c hinv.sorted with
      ⟨p, q, hc, hp, hq⟩ | ⟨p, y, q, hc, hp, hy, hq⟩
    · obtain ⟨s2, h1, h2, _⟩ := hinv.insert_absent hc hp hq value rnd
      rw [hi] at h1
      simp only [Option.some.injEq, Prod.mk.injEq] at h1
      exact ⟨_, h1.1 ▸ h2⟩
    · obtain ⟨s2, h1, h2, _⟩ := hinv.insert_present hc hp hy hq value rnd
      rw [hi] at h1
      simp only [Option.some.injEq, Prod.mk.injEq] at h1
      exact ⟨_, h1.1 ▸ h2⟩
  | delete s s1 key r _ hd ih =>
    obtain ⟨c, hinv⟩ := ih
    rcases exists_split3 (keyAt s.mem) key c hinv.sorted with
      ⟨p, q, hc, hp, hq⟩ | ⟨p, y, q, hc, hp, hy, hq⟩
    · have h1 := hinv.delete_absent hc hp hq
      rw [hd] at h1
      simp only [Option.some.injEq, Prod.mk.injEq] at h1
      exact ⟨c, h1.1 ▸ hinv⟩
    · obtain ⟨s2, h1, h2, _⟩ := hinv.delete_present hc hp hy hq
      rw [hd] at h1
      simp only [Option.some.injEq, Prod.mk.injEq] at h1
      exact ⟨_, h1.1 ▸ h2⟩

/-! ## Looking a key up in a well-formed list -/

theorem Inv.search_present {V : Type} {s : SkipList V} {c p q : List Nat} {key : Int}
    {y : Nat} (h : Inv s c) (hc : c = p ++ y :: q) (hp : ∀ a ∈ p, keyAt s.mem a < key)
    (hy : keyAt s.mem y = key) (hq : ∀ a ∈ q, key < keyAt s.mem a) :
    Search s key = some (some y, true) := by
  have hq1 : ∀ a ∈ y :: q, key ≤ keyAt s.mem a := by
    intro a ha
    rcases List.mem_cons.mp ha with h1 | h1
    · rw [h1, hy]
    · exact le_of_lt (hq a h1)
  rw [h.search_eq hc hp hq1]
  simp only [hy, if_true]

theorem Inv.search_absent {V : Type} {s : SkipList V} {c p q : List Nat} {key : Int}
    (h : Inv s c) (hc : c = p ++ q) (hp : ∀ a ∈ p, keyAt s.mem a < key)
    (hq : ∀ a ∈ q, key < keyAt s.mem a) :
    Search s key = some (none, false) := by
  rw [h.search_eq hc hp (fun a ha => le_of_lt (hq a ha))]
  cases q with
  | nil => rfl
  | cons y q =>
    have : ¬ keyAt s.mem y = key := fun hk =>
      lt_irrefl key (hk ▸ hq y (List.mem_cons_self y q))
    simp only [this, if_false]

theorem not_mem_key_of_split {K : Nat → Int} {key : Int} {p q : List Nat}
    (hp : ∀ a ∈ p, K a < key) (hq : ∀ a ∈ q, key < K a) :
    ∀ a ∈ p ++ q, K a ≠ key := by
  intro a ha hk
  rcases List.mem_append.mp ha with h1 | h1
  · exact lt_irrefl key (hk ▸ hp a h1)
  · exact lt_irrefl key (hk ▸ hq a h1)

theorem eq_of_mem_key_of_split {K : Nat → Int} {key : Int} {p q : List Nat} {y : Nat}
    (hp : ∀ a ∈ p, K a < key) (hq : ∀ a ∈ q, key < K a) :
    ∀ a ∈ p ++ y :: q, K a = key → a = y := by
  intro a ha hk
  rcases List.mem_append.mp ha with h1 | h1
  · exact absurd (hk ▸ hp a h1) (lt_irrefl key)
  · rcases List.mem_cons.mp h1 with h2 | h2
    · exact h2
    · exact absurd (hk ▸ hq a h2) (lt_irrefl key)

/-! ## Derived facts used by the claims -/

theorem Inv.holds_iff {V : Type} {s : SkipList V} {c : List Nat} (h : Inv s c) (key : Int) :
    Holds s key ↔ ∃ a ∈ c, keyAt s.mem a = key := by
  constructor
  · rintro ⟨c1, h1, h2⟩
    rw [h.levelChain_zero] at h1
    simp only [Option.some.injEq] at h1
    rw [h1]; exact h2
  · intro h2
    exact ⟨c, h.levelChain_zero, h2⟩

/-- After `Insert(key, value)` on a well-formed list, whether the key was there or
not, the list is well formed and holds `key` at the returned element with `value`. -/
theorem Inv.insert_spec {V : Type} {s : SkipList V} {c : List Nat} (h : Inv s c) (key : Int)
    (value : Option V) (rnd : Nat → Bool) :
    ∃ s1 e p q, Insert s key value rnd = some (s1, some e) ∧ Inv s1 (p ++ e :: q) ∧
      (∀ a ∈ p, keyAt s1.mem a < key) ∧ keyAt s1.mem e = key ∧
      (∀ a ∈ q, key < keyAt s1.mem a) ∧ valAt s1.mem e = value := by
  rcases exists_split3 (keyAt s.mem) key c h.sorted with
    ⟨p, q, hc, hp, hq⟩ | ⟨p, y, q, hc, hp, hy, hq⟩
  · obtain ⟨s1, h1, h2, _, _, _, _, h7, h8, _⟩ := h.insert_absent hc hp hq value rnd
    have hne : ∀ a ∈ c, a ≠ s.mem.length := fun a ha => Nat.ne_of_lt (h.valid a ha).2
    refine ⟨s1, s.mem.length, p, q, h1, h2, ?_, ?_, ?_, ?_⟩
    · intro a ha
      rw [h7, if_neg (hne a (hc ▸ List.mem_append_left q ha))]; exact hp a ha
    · rw [h7, if_pos rfl]
    · intro a ha
      rw [h7, if_neg (hne a (hc ▸ List.mem_append_right p ha))]; exact hq a ha
    · rw [h8, if_pos rfl]
  · obtain ⟨s1, h1, h2, _, _, _, _, h7, h8, _⟩ := h.insert_present hc hp hy hq value rnd
    refine ⟨s1, y, p, q, h1, hc ▸ h2, ?_, ?_, ?_, ?_⟩
    · intro a ha; rw [h7]; exact hp a ha
    · rw [h7]; exact hy
    · intro a ha; rw [h7]; exact hq a ha
    · rw [h8, if_pos rfl]

/-! ## The sample runs -/

theorem run1_eq : Insert New 10 (some 100) (draw 1) = some (run1, some 1) := by decide

theorem run2_eq : Insert run1 20 (some 200) (draw 2) = some (run2, some 2) := by decide

theorem run3_eq : Insert run2 5 (some 50) (draw 1) = some (run3, some 3) := by decide

theorem run4_eq : Insert run3 15 (some 150) (draw 1) = some (run4, some 4) := by decide

theorem run1_reachable : Reachable run1 :=
  Reachable.insert New run1 10 (some 100) (draw 1) (some 1) Reachable.new run1_eq

theorem run2_reachable : Reachable run2 :=
  Reachable.insert run1 run2 20 (some 200) (draw 2) (some 2) run1_reachable run2_eq

theorem run3_reachable : Reachable run3 :=
  Reachable.insert run2 run3 5 (some 50) (draw 1) (some 3) run2_reachable run3_eq

theorem run4_reachable : Reachable run4 :=
  Reachable.insert run3 run4 15 (some 150) (draw 1) (some 4) run3_reachable run4_eq

theorem run4_holds_10 : Holds run4 10 :=
  ⟨[3, 1, 4, 2], by decide, 1, by decide, by decide⟩

theorem run2_holds_10 : Holds run2 10 :=
  ⟨[1, 2], by decide, 1, by decide, by decide⟩

theorem run1_not_holds_5 : ¬ Holds run1 5 := by
  rintro ⟨c, hc, a, ha, hk⟩
  have h1 : levelChain run1 0 = some [1] := by decide
  rw [h1] at hc
  simp only [Option.some.injEq] at hc
  subst hc
  simp only [List.mem_singleton] at ha
  subst ha
  revert hk
  decide

theorem New_not_holds (key : Int) : ¬ Holds (New : SkipList Nat) key := by
  rintro ⟨c, hc, a, ha, _⟩
  have h1 : levelChain (New : SkipList Nat) 0 = some [] := by decide
  rw [h1] at hc
  simp only [Option.some.injEq] at hc
  subst hc
  exact absurd ha (List.not_mem_nil a)

/-! ## The claims -/

/-- Claim C1. On every reachable list and for every key, `Search` returns normally, and
with `c` the level-0 chain from `Head`: if an element of `c` has the key, `Search`
returns that very element with `ok = true` (so the returned record carries the key and
the value stored for it); if no element of `c` has the key, `Search` returns
`(nil, false)`. -/
theorem search_returns_the_chain_element {V : Type} (s : SkipList V) (hr : Reachable s)
    (key : Int) :
    ∃ c, levelChain s 0 = some c ∧
      (∀ a ∈ c, keyAt s.mem a = key → Search s key = some (some a, true)) ∧
      ((∀ a ∈ c, keyAt s.mem a ≠ key) → Search s key = some (none, false)) := by
  obtain ⟨c, h⟩ := hr.inv
  refine ⟨c, h.levelChain_zero, ?_, ?_⟩
  · intro a ha hk
    rcases exists_split3 (keyAt s.mem) key c h.sorted with
      ⟨p, q, hc, hp, hq⟩ | ⟨p, y, q, hc, hp, hy, hq⟩
    · exact absurd hk (not_mem_key_of_split hp hq a (hc ▸ ha))
    · rw [eq_of_mem_key_of_split hp hq a (hc ▸ ha) hk]
      exact h.search_present hc hp hy hq
  · intro hno
    rcases exists_split3 (keyAt s.mem) key c h.sorted with
      ⟨p, q, hc, hp, hq⟩ | ⟨p, y, q, hc, hp, hy, hq⟩
    · exact h.search_absent hc hp hq
    · exact absurd hy (hno y (hc ▸ List.mem_append_right p (List.mem_cons_self y q)))

theorem search_returns_the_chain_element_witness :
    Reachable run4 ∧ ∃ c, levelChain run4 0 = some c ∧
      (∀ a ∈ c, keyAt run4.mem a = 15 → Search run4 15 = some (some a, true)) ∧
      ((∀ a ∈ c, keyAt run4.mem a ≠ 15) → Search run4 15 = some (none, false)) :=
  ⟨run4_reachable, search_returns_the_chain_element run4 run4_reachable 15⟩

/-- Claim C2. Round trip: on every reachable list, for every key, value and trial
sequence, `Insert(key, value)` returns an element, and `Search(key)` on the resulting
list returns that element with `ok = true`; its key is `key` and its value is `value`. -/
theorem insert_then_search {V : Type} (s : SkipList V) (hr : Reachable s) (key : Int)
    (value : Option V) (rnd : Nat → Bool) :
    ∃ s1 e, Insert s key value rnd = some (s1, some e) ∧
      Search s1 key = some (some e, true) ∧
      keyAt s1.mem e = key ∧ valAt s1.mem e = value := by
  obtain ⟨c, h⟩ := hr.inv
  obtain ⟨s1, e, p, q, h1, h2, h3, h4, h5, h6⟩ := h.insert_spec key value rnd
  exact ⟨s1, e, h1, h2.search_present rfl h3 h4 h5, h4, h6⟩

theorem insert_then_search_witness :
    Reachable run4 ∧ ∃ s1 e, Insert run4 12 (some 120) (draw 3) = some (s1, some e) ∧
      Search s1 12 = some (some e, true) ∧
      keyAt s1.mem e = 12 ∧ valAt s1.mem e = some 120 :=
  ⟨run4_reachable, insert_then_search run4 run4_reachable 12 (some 120) (draw 3)⟩

/-- Claim C3. Update semantics: on every reachable list, `Insert(key, v1)` followed by
`Insert(key, v2)` both return; `Length()` after the second call equals `Length()`
after the first, and `Search(key)` then returns an element with `ok = true` whose
value is `v2`. -/
theorem insert_twice_updates {V : Type} (s : SkipList V) (hr : Reachable s) (key : Int)
    (v1 v2 : Option V) (rnd1 rnd2 : Nat → Bool) :
    ∃ s1 r1 s2 r2, Insert s key v1 rnd1 = some (s1, r1) ∧
      Insert s1 key v2 rnd2 = some (s2, r2) ∧ Length s2 = Length s1 ∧
      ∃ e, Search s2 key = some (some e, true) ∧ valAt s2.mem e = v2 := by
  obtain ⟨c, h⟩ := hr.inv
  obtain ⟨s1, e, p, q, h1, h2, h3, h4, h5, _⟩ := h.insert_spec key v1 rnd1
  obtain ⟨s2, g1, g2, g3, _, _, _, g7, g8, _⟩ := h2.insert_present rfl h3 h4 h5 v2 rnd2
  refine ⟨s1, some e, s2, some e, h1, g1, g3, e, ?_, ?_⟩
  · exact g2.search_present rfl (fun a ha => by rw [g7]; exact h3 a ha)
      (by rw [g7]; exact h4) (fun a ha => by rw [g7]; exact h5 a ha)
  · rw [g8, if_pos rfl]

theorem insert_twice_updates_witness :
    Reachable run4 ∧ ∃ s1 r1 s2 r2, Insert run4 12 (some 1) (draw 2) = some (s1, r1) ∧
      Insert s1 12 (some 2) (draw 5) = some (s2, r2) ∧ Length s2 = Length s1 ∧
      ∃ e, Search s2 12 = some (some e, true) ∧ valAt s2.mem e = some 2 :=
  ⟨run4_reachable,
    insert_twice_updates run4 run4_reachable 12 (some 1) (some 2) (draw 2) (draw 5)⟩

/-- Claim C4. Delete removes: on every reachable list that holds `key`, `Delete(key)`
returns normally (through either of its exits, whatever the number of levels of the
removed element), and `Search(key)` on the resulting list returns `(nil, false)`. -/
theorem delete_then_search {V : Type} (s : SkipList V) (hr : Reachable s) (key : Int)
    (hk : Holds s key) :
    ∃ s1 r, Delete s key = some (s1, r) ∧ Search s1 key = some (none, false) := by
  obtain ⟨c, h⟩ := hr.inv
  obtain ⟨a, ha, hka⟩ := (h.holds_iff key).mp hk
  rcases exists_split3 (keyAt s.mem) key c h.sorted with
    ⟨p, q, hc, hp, hq⟩ | ⟨p, y, q, hc, hp, hy, hq⟩
  · exact absurd hka (not_mem_key_of_split hp hq a (hc ▸ ha))
  · obtain ⟨s1, h1, h2, _, _, _, _, h7, _⟩ := h.delete_present hc hp hy hq
    exact ⟨s1, _, h1, h2.search_absent rfl (fun b hb => by rw [h7]; exact hp b hb)
      (fun b hb => by rw [h7]; exact hq b hb)⟩

theorem delete_then_search_witness :
    Holds run4 10 ∧ Reachable run4 ∧
      ∃ s1 r, Delete run4 10 = some (s1, r) ∧ Search s1 10 = some (none, false) :=
  ⟨run4_holds_10, run4_reachable, delete_then_search run4 run4_reachable 10 run4_holds_10⟩

/-- Claim C5. The scenario of the claim, run on the program: the keys 10, 20, 5 and 15 are
inserted into a new list, the levels drawn being 1, 2, 1 and 1; the list then holds 10
and `Length()` is 4.  `Delete(10)` returns, and `Length()` is still 4: it has not
decreased by 1 and is not 3. -/
theorem scenario_delete_keeps_length :
    Reachable run4 ∧ Holds run4 10 ∧ Length run4 = 4 ∧
      Delete run4 10 = some (run5, none) ∧ Length run5 = 4 :=
  ⟨run4_reachable, run4_holds_10, by decide, by decide, by decide⟩

/-- Claim C6. A run of the program in which `Delete` of a key the list holds returns nil:
after `Insert(10, 100)` with level 1 and `Insert(20, 200)` with level 2 the list holds
10, and `Delete(10)` returns the nil pointer, not the removed element. -/
theorem delete_present_returns_nil :
    Reachable run2 ∧ Holds run2 10 ∧ (Delete run2 10).map Prod.snd = some none :=
  ⟨run2_reachable, run2_holds_10, by decide⟩

/-- Claim C7. A run of the program in which `Delete` of a key the list does not hold
returns an element: the list holding only the key 10 does not hold 5, and `Delete(5)`
leaves it as it is and returns the address 1 of the element with key 10, not nil. -/
theorem delete_absent_returns_successor :
    Reachable run1 ∧ (Holds run1 5 → False) ∧ Delete run1 5 = some (run1, some 1) ∧
      keyAt run1.mem 1 = 10 :=
  ⟨run1_reachable, run1_not_holds_5, by decide, by decide⟩

/-- Claim C8. On every reachable list that does not hold `key`, `Delete(key)` returns
normally and the list after the call is the list before it: `Len`, `Level`, `Head` and
the whole store, hence every forward link, key and value, are unchanged. -/
theorem delete_absent_changes_nothing {V : Type} (s : SkipList V) (hr : Reachable s)
    (key : Int) (hk : ¬ Holds s key) :
    ∃ r, Delete s key = some (s, r) := by
  obtain ⟨c, h⟩ := hr.inv
  rcases exists_split3 (keyAt s.mem) key c h.sorted with
    ⟨p, q, hc, hp, hq⟩ | ⟨p, y, q, hc, hp, hy, hq⟩
  · exact ⟨_, h.delete_absent hc hp hq⟩
  · exact absurd ((h.holds_iff key).mpr
      ⟨y, hc ▸ List.mem_append_right p (List.mem_cons_self y q), hy⟩) hk

theorem delete_absent_changes_nothing_witness :
    Reachable run1 ∧ ∃ r, Delete run1 5 = some (run1, r) :=
  ⟨run1_reachable, delete_absent_changes_nothing run1 run1_reachable 5 run1_not_holds_5⟩

/-- Claim C9. Ordering invariant: on every reachable list the keys along the level-0
chain from `Head` increase strictly, so no key occurs twice on it, and the keys along
the chain of every level below `Level` increase strictly as well. -/
theorem chains_strictly_increasing {V : Type} (s : SkipList V) (hr : Reachable s) :
    ∃ c, levelChain s 0 = some c ∧
      c.Pairwise (fun a b => keyAt s.mem a < keyAt s.mem b) ∧
      (c.map (keyAt s.mem)).Nodup ∧
      ∀ i, i < s.Level → ∃ ci, levelChain s i = some ci ∧
        ci.Pairwise (fun a b => keyAt s.mem a < keyAt s.mem b) := by
  obtain ⟨c, h⟩ := hr.inv
  refine ⟨c, h.levelChain_zero, h.sorted, ?_, ?_⟩
  · rw [List.Nodup, List.pairwise_map]
    exact h.sorted.imp fun hab => ne_of_lt hab
  · intro i hi
    exact ⟨_, h.levelChain_eq (lt_of_lt_of_le hi h.level), h.sorted.filter _⟩

theorem chains_strictly_increasing_witness :
    Reachable run4 ∧ ∃ c, levelChain run4 0 = some c ∧
      c.Pairwise (fun a b => keyAt run4.mem a < keyAt run4.mem b) ∧
      (c.map (keyAt run4.mem)).Nodup ∧
      ∀ i, i < run4.Level → ∃ ci, levelChain run4 i = some ci ∧
        ci.Pairwise (fun a b => keyAt run4.mem a < keyAt run4.mem b) :=
  ⟨run4_reachable, chains_strictly_increasing run4 run4_reachable⟩

/-- Claim C10. On every reachable list that does not hold `key`, for every value and
trial sequence, `Insert(key, value)` returns normally; `Length()` has increased by
exactly 1, and the returned element is new (no record was stored at its address
before the call) and has key `key` and value `value`. -/
theorem insert_absent_adds_one {V : Type} (s : SkipList V) (hr : Reachable s) (key : Int)
    (hk : ¬ Holds s key) (value : Option V) (rnd : Nat → Bool) :
    ∃ s1 e, Insert s key value rnd = some (s1, some e) ∧ Length s1 = Length s + 1 ∧
      s.mem[e]? = none ∧ keyAt s1.mem e = key ∧ valAt s1.mem e = value := by
  obtain ⟨c, h⟩ := hr.inv
  rcases exists_split3 (keyAt s.mem) key c h.sorted with
    ⟨p, q, hc, hp, hq⟩ | ⟨p, y, q, hc, hp, hy, hq⟩
  · obtain ⟨s1, h1, _, h3, _, _, _, h7, h8, _⟩ := h.insert_absent hc hp hq value rnd
    exact ⟨s1, s.mem.length, h1, h3, List.getElem?_eq_none (le_refl _),
      by rw [h7, if_pos rfl], by rw [h8, if_pos rfl]⟩
  · exact absurd ((h.holds_iff key).mpr
      ⟨y, hc ▸ List.mem_append_right p (List.mem_cons_self y q), hy⟩) hk

theorem insert_absent_adds_one_witness :
    Reachable (New : SkipList Nat) ∧
      ∃ s1 e, Insert (New : SkipList Nat) 10 (some 100) (draw 1) = some (s1, some e) ∧
        Length s1 = Length (New : SkipList Nat) + 1 ∧
        (New : SkipList Nat).mem[e]? = none ∧ keyAt s1.mem e = 10 ∧
        valAt s1.mem e = some 100 :=
  ⟨Reachable.new,
    insert_absent_adds_one New Reachable.new 10 (New_not_holds 10) (some 100) (draw 1)⟩

/-! ## `Search` as a lookup in the chain -/

theorem find_key_eq_none {K : Nat → Int} {key : Int} {l : List Nat}
    (h : ∀ a ∈ l, K a ≠ key) : l.find? (fun a => decide (K a = key)) = none := by
  rw [List.find?_eq_none]
  intro a ha
  simpa using h a ha

theorem find_key_split {K : Nat → Int} {key : Int} {p q : List Nat} {y : Nat}
    (hp : ∀ a ∈ p, K a ≠ key) (hy : K y = key) :
    (p ++ y :: q).find? (fun a => decide (K a = key)) = some y := by
  rw [List.find?_append, find_key_eq_none hp]
  simp [List.find?, hy]

theorem find_key_skip {K : Nat → Int} {key : Int} {p q : List Nat} {e : Nat}
    (he : K e ≠ key) :
    (p ++ e :: q).find? (fun a => decide (K a = key))
      = (p ++ q).find? (fun a => decide (K a = key)) := by
  rw [List.find?_append, List.find?_append]
  simp [List.find?, he]

theorem find_key_congr {K K1 : Nat → Int} {key : Int} {l : List Nat}
    (h : ∀ a ∈ l, K1 a = K a) :
    l.find? (fun a => decide (K1 a = key)) = l.find? (fun a => decide (K a = key)) := by
  induction l with
  | nil => rfl
  | cons a l ih =>
    have ha : K1 a = K a := h a (List.mem_cons_self a l)
    have hl := ih fun b hb => h b (List.mem_cons_of_mem a hb)
    simp only [List.find?, ha, hl]

/-- On a well-formed list `Search` returns the element of the chain that carries the
key, if there is one, and reports whether there is one. -/
theorem Inv.search_find {V : Type} {s : SkipList V} {c : List Nat} (h : Inv s c) (key : Int) :
    Search s key = some (c.find? (fun a => decide (keyAt s.mem a = key)),
      (c.find? (fun a => decide (keyAt s.mem a = key))).isSome) := by
  rcases exists_split3 (keyAt s.mem) key c h.sorted with
    ⟨p, q, hc, hp, hq⟩ | ⟨p, y, q, hc, hp, hy, hq⟩
  · rw [h.search_absent hc hp hq, hc, find_key_eq_none (not_mem_key_of_split hp hq)]
    rfl
  · rw [h.search_present hc hp hy hq, hc,
      find_key_split (fun a ha => ne_of_lt (hp a ha)) hy]
    rfl

theorem Inv.search_some {V : Type} {s : SkipList V} {c : List Nat} (h : Inv s c) {key : Int}
    {a : Nat} (hs : Search s key = some (some a, true)) :
    a ∈ c ∧ keyAt s.mem a = key := by
  rw [h.search_find key] at hs
  simp only [Option.some.injEq, Prod.mk.injEq] at hs
  exact ⟨List.mem_of_find?_eq_some hs.1, by simpa using List.find?_some hs.1⟩

/-! ## What `Insert` and `Delete` leave alone -/

/-- `Insert(key, value)` on a well-formed list does not change what `Search` returns
for another key, nor the record it returns. -/
theorem Inv.insert_frame {V : Type} {s : SkipList V} {c : List Nat} (h : Inv s c)
    (key key1 : Int) (hne : key1 ≠ key) (value : Option V) (rnd : Nat → Bool) :
    ∃ s1 r, Insert s key value rnd = some (s1, r) ∧ Search s1 key1 = Search s key1 ∧
      ∀ a, Search s key1 = some (some a, true) →
        keyAt s1.mem a = keyAt s.mem a ∧ valAt s1.mem a = valAt s.mem a := by
  rcases exists_split3 (keyAt s.mem) key c h.sorted with
    ⟨p, q, hc, hp, hq⟩ | ⟨p, y, q, hc, hp, hy, hq⟩
  · obtain ⟨s1, h1, h2, _, _, _, _, h7, h8, _⟩ := h.insert_absent hc hp hq value rnd
    have hlt : ∀ a ∈ c, a ≠ s.mem.length := fun a ha => Nat.ne_of_lt (h.valid a ha).2
    refine ⟨s1, _, h1, ?_, ?_⟩
    · rw [h2.search_find key1, h.search_find key1]
      have he : keyAt s1.mem s.mem.length ≠ key1 := by
        rw [h7, if_pos rfl]; exact fun hk => hne hk.symm
      have hcg : ∀ a ∈ p ++ q, keyAt s1.mem a = keyAt s.mem a := fun a ha => by
        rw [h7, if_neg (hlt a (hc ▸ ha))]
      rw [find_key_skip he, find_key_congr hcg, hc]
    · intro a ha
      have hac := (h.search_some ha).1
      rw [h7, h8, if_neg (hlt a hac), if_neg (hlt a hac)]
      exact ⟨rfl, rfl⟩
  · obtain ⟨s1, h1, h2, _, _, _, _, h7, h8, _⟩ := h.insert_present hc hp hy hq value rnd
    refine ⟨s1, _, h1, ?_, ?_⟩
    · rw [h2.search_find key1, h.search_find key1, find_key_congr fun a _ => h7 a]
    · intro a ha
      have hak := (h.search_some ha).2
      have hay : a ≠ y := fun hh => hne (by rw [← hak, hh, hy])
      rw [h7, h8, if_neg hay]
      exact ⟨rfl, rfl⟩

/-- `Delete(key)` on a well-formed list does not change what `Search` returns for
another key, nor the record it returns. -/
theorem Inv.delete_frame {V : Type} {s : SkipList V} {c : List Nat} (h : Inv s c)
    (key key1 : Int) (hne : key1 ≠ key) :
    ∃ s1 r, Delete s key = some (s1, r) ∧ Search s1 key1 = Search s key1 ∧
      ∀ a, Search s key1 = some (some a, true) →
        keyAt s1.mem a = keyAt s.mem a ∧ valAt s1.mem a = valAt s.mem a := by
  rcases exists_split3 (keyAt s.mem) key c h.sorted with
    ⟨p, q, hc, hp, hq⟩ | ⟨p, y, q, hc, hp, hy, hq⟩
  · exact ⟨s, _, h.delete_absent hc hp hq, rfl, fun _ _ => ⟨rfl, rfl⟩⟩
  · obtain ⟨s1, h1, h2, _, _, _, _, h7, h8, _⟩ := h.delete_present hc hp hy hq
    refine ⟨s1, _, h1, ?_, fun a _ => ⟨h7 a, h8 a⟩⟩
    rw [h2.search_find key1, h.search_find key1, find_key_congr fun a _ => h7 a, hc,
      find_key_skip (by rw [hy]; exact fun hk => hne hk.symm)]

/-! ## The level `randomLevel` draws -/

theorem randomLevelLoop_stop (rnd : Nat → Bool) (k : Nat) (hk : k < MaxLevel)
    (hf : rnd (k - 1) = false) :
    ∀ fuel level, 1 ≤ level → level ≤ k → k - level < fuel →
      (∀ i, level - 1 ≤ i → i < k - 1 → rnd i = true) →
      randomLevelLoop rnd fuel level = k := by
  intro fuel
  induction fuel with
  | zero => intro level _ _ h; exact absurd h (Nat.not_lt_zero _)
  | succ fuel ih =>
    intro level h1 h2 h3 ht
    unfold randomLevelLoop
    rcases Nat.lt_or_eq_of_le h2 with hlt | heq
    · have hr : rnd (level - 1) = true := ht (level - 1) (le_refl _) (by omega)
      have hm : level < MaxLevel := lt_trans hlt hk
      simp only [hr, hm, decide_True, Bool.and_self, if_true]
      exact ih (level + 1) (by omega) (by omega) (by omega)
        (fun i hi1 hi2 => ht i (by omega) hi2)
    · subst heq
      simp only [hf, Bool.false_and, Bool.false_eq_true, if_false]

theorem randomLevelLoop_cap (rnd : Nat → Bool) :
    ∀ fuel level, 1 ≤ level → level ≤ MaxLevel → MaxLevel - level < fuel →
      (∀ i, level - 1 ≤ i → i < MaxLevel - 1 → rnd i = true) →
      randomLevelLoop rnd fuel level = MaxLevel := by
  intro fuel
  induction fuel with
  | zero => intro level _ _ h; exact absurd h (Nat.not_lt_zero _)
  | succ fuel ih =>
    intro level h1 h2 h3 ht
    unfold randomLevelLoop
    rcases Nat.lt_or_eq_of_le h2 with hlt | heq
    · have hr : rnd (level - 1) = true := ht (level - 1) (le_refl _) (by omega)
      simp only [hr, hlt, decide_True, Bool.and_self, if_true]
      exact ih (level + 1) (by omega) hlt (by omega)
        (fun i hi1 hi2 => ht i (by omega) hi2)
    · subst heq
      simp only [lt_irrefl, decide_False, Bool.and_false, Bool.false_eq_true, if_false]

/-- The two ways `randomLevel` ends: at the first failing trial, when one of the first
`MaxLevel - 1` trials fails, or at `MaxLevel`. -/
theorem randomLevel_cases (rnd : Nat → Bool) :
    (∃ j, j < MaxLevel - 1 ∧ rnd j = false ∧ (∀ i, i < j → rnd i = true) ∧
        randomLevel rnd = j + 1) ∨
      ((∀ i, i < MaxLevel - 1 → rnd i = true) ∧ randomLevel rnd = MaxLevel) := by
  by_cases hex : ∃ j, j < MaxLevel - 1 ∧ rnd j = false
  · left
    refine ⟨Nat.find hex, (Nat.find_spec hex).1, (Nat.find_spec hex).2, ?_, ?_⟩
    · intro i hi
      have h1 := Nat.find_min hex hi
      have h2 : i < MaxLevel - 1 := lt_trans hi (Nat.find_spec hex).1
      cases hr : rnd i with
      | true => rfl
      | false => exact absurd ⟨h2, hr⟩ h1
    · have hj := (Nat.find_spec hex).1
      have hM : MaxLevel = 16 := rfl
      refine randomLevelLoop_stop rnd (Nat.find hex + 1) (by omega)
        (by simpa using (Nat.find_spec hex).2) MaxLevel 1 (le_refl _) (by omega) (by omega) ?_
      intro i _ hi
      have hi2 : i < Nat.find hex := by omega
      have h1 := Nat.find_min hex hi2
      cases hr : rnd i with
      | true => rfl
      | false => exact absurd ⟨by omega, hr⟩ h1
  · right
    have hall : ∀ i, i < MaxLevel - 1 → rnd i = true := by
      intro i hi
      cases hr : rnd i with
      | true => rfl
      | false => exact absurd ⟨i, hi, hr⟩ hex
    exact ⟨hall, randomLevelLoop_cap rnd MaxLevel 1 (le_refl _) (by decide) (by decide)
      (fun i _ hi => hall i hi)⟩

/-! ## Bounds on every record of the store -/

/-- In every reachable list, every record other than the sentinel has between 1 and
`Level` forward slots, and `Level` is 0 or the number of slots of one of them. -/
theorem Reachable.store_bounds {V : Type} {s : SkipList V} (hr : Reachable s) :
    (∀ a, 0 < a → a < s.mem.length → 1 ≤ ht s.mem a ∧ ht s.mem a ≤ s.Level) ∧
      (s.Level = 0 ∨ ∃ a, 0 < a ∧ a < s.mem.length ∧ ht s.mem a = s.Level) := by
  induction hr with
  | new =>
    refine ⟨?_, Or.inl rfl⟩
    intro a h1 h2
    have : (New : SkipList V).mem.length = 1 := rfl
    omega
  | insert s s1 key value rnd r hr hi ih =>
    obtain ⟨c, hinv⟩ := hr.inv
    obtain ⟨ih1, ih2⟩ := ih
    rcases exists_split3 (keyAt s.mem) key c hinv.sorted with
      ⟨p, q, hc, hp, hq⟩ | ⟨p, y, q, hc, hp, hy, hq⟩
    · obtain ⟨s2, h1, _, _, h4, h5, h6, _⟩ := hinv.insert_absent hc hp hq value rnd
      rw [hi] at h1
      simp only [Option.some.injEq, Prod.mk.injEq] at h1
      obtain ⟨h1, _⟩ := h1
      subst h1
      obtain ⟨hr1, _⟩ := randomLevel_bounds rnd
      have h0 := hinv.head_lt
      constructor
      · intro a ha1 ha2
        rw [h6, h4]
        by_cases hae : a = s.mem.length
        · rw [if_pos hae]
          by_cases hg : s.Level < randomLevel rnd
          · simp only [hg, if_true]; omega
          · simp only [hg, if_false]; omega
        · rw [if_neg hae]
          have := ih1 a ha1 (by omega)
          by_cases hg : s.Level < randomLevel rnd
          · simp only [hg, if_true]; omega
          · simp only [hg, if_false]; omega
      · right
        by_cases hg : s.Level < randomLevel rnd
        · refine ⟨s.mem.length, h0, by omega, ?_⟩
          rw [h6, h4, if_pos rfl]
          simp only [hg, if_true]
        · rcases ih2 with hz | ⟨a, ha1, ha2, ha3⟩
          · omega
          · refine ⟨a, ha1, by omega, ?_⟩
            rw [h6, h4, if_neg (by omega)]
            simp only [hg, if_false]; exact ha3
    · obtain ⟨s2, h1, _, _, h4, h5, h6, _⟩ := hinv.insert_present hc hp hy hq value rnd
      rw [hi] at h1
      simp only [Option.some.injEq, Prod.mk.injEq] at h1
      obtain ⟨h1, _⟩ := h1
      subst h1
      constructor
      · intro a ha1 ha2
        rw [h6, h4]; exact ih1 a ha1 (by omega)
      · rcases ih2 with hz | ⟨a, ha1, ha2, ha3⟩
        · left; rw [h4]; exact hz
        · right; exact ⟨a, ha1, by omega, by rw [h6, h4]; exact ha3⟩
  | delete s s1 key r hr hd ih =>
    obtain ⟨c, hinv⟩ := hr.inv
    obtain ⟨ih1, ih2⟩ := ih
    rcases exists_split3 (keyAt s.mem) key c hinv.sorted with
      ⟨p, q, hc, hp, hq⟩ | ⟨p, y, q, hc, hp, hy, hq⟩
    · have h1 := hinv.delete_absent hc hp hq
      rw [hd] at h1
      simp only [Option.some.injEq, Prod.mk.injEq] at h1
      obtain ⟨h1, _⟩ := h1
      subst h1
      exact ⟨ih1, ih2⟩
    · obtain ⟨s2, h1, _, _, h4, h5, h6, _⟩ := hinv.delete_present hc hp hy hq
      rw [hd] at h1
      simp only [Option.some.injEq, Prod.mk.injEq] at h1
      obtain ⟨h1, _⟩ := h1
      subst h1
      constructor
      · intro a ha1 ha2
        rw [h6, h4]; exact ih1 a ha1 (by omega)
      · rcases ih2 with hz | ⟨a, ha1, ha2, ha3⟩
        · left; rw [h4]; exact hz
        · right; exact ⟨a, ha1, by omega, by rw [h6, h4]; exact ha3⟩

/-! ## The checks of the unlink loop -/

/-- The unlink loop of `Delete` on a well-formed list that holds the key at `x`: the
check passes at every level below the number of slots of `x`, and fails at that level
when it is below `Level`; so the whole loop leaves through `return nil` exactly when
`x` has fewer slots than `Level`. -/
theorem Inv.unlink_checks {V : Type} {s : SkipList V} {c p q : List Nat} {key : Int}
    {x : Nat} (h : Inv s c) (hc : c = p ++ x :: q) (hp : ∀ a ∈ p, keyAt s.mem a < key)
    (hx : keyAt s.mem x = key) (hq : ∀ a ∈ q, key < keyAt s.mem a) :
    ∃ x0 u, updateLevels s.mem key s.mem.length s.Level s.Head (List.replicate MaxLevel none)
        = some (x0, u) ∧ (cell s.mem x0).Forward[0]? = some (some x) ∧
      (∀ n, n ≤ ht s.mem x → ∃ m, unlinkLoop u x n s.mem = some (m, false)) ∧
      (ht s.mem x < s.Level →
        ∃ m, unlinkLoop u x (ht s.mem x + 1) s.mem = some (m, true)) ∧
      ∃ m, unlinkLoop u x s.Level s.mem = some (m, decide (ht s.mem x < s.Level)) := by
  have hq1 : ∀ a ∈ x :: q, key ≤ keyAt s.mem a := by
    intro a ha
    rcases List.mem_cons.mp ha with h1 | h1
    · rw [h1, hx]
    · exact le_of_lt (hq a h1)
  obtain ⟨u, hu1, _, hu3, _⟩ := h.update_eq hc hp hq1
  obtain ⟨hx1, hx2⟩ := h.fwd_pred_zero hc
  have hxc : x ∈ c := hc ▸ List.mem_append_right p (List.mem_cons_self x q)
  obtain ⟨_, hm2⟩ := h.hts x hxc
  have hnd := h.nodup
  rw [hc, ← List.cons_append] at hnd
  have hxq : x ∉ q := (List.nodup_cons.mp (List.nodup_append.mp hnd).2.1).1
  have hfu : ∀ j, j < ht s.mem x →
      fwd s.mem (lastAt (ht s.mem) j 0 p) j = some x := by
    intro j hj
    rw [(h.fwd_pred hc (lt_of_lt_of_le hj (le_trans hm2 h.level))).2, firstAt_cons_pos _ hj]
  have hloop := @unlinkLoop_eq V u x (ht s.mem x) (fun j => lastAt (ht s.mem) j 0 p)
      s.mem (fun j hj => hu3 j (lt_of_lt_of_le hj hm2))
      (fun j hj => (h.fwd_pred hc (lt_of_lt_of_le hj (le_trans hm2 h.level))).1)
      hfu (le_refl _)
  have hstop : ht s.mem x < s.Level →
      ∃ m, unlinkLoop u x (ht s.mem x + 1) s.mem = some (m, true) := by
    intro hlt
    obtain ⟨mem1, h1, _, h3, _, _, h6⟩ := hloop (ht s.mem x) (le_refl _)
    have hpm := h.fwd_pred hc (lt_of_lt_of_le hlt h.level)
    have hne : fwd mem1 (lastAt (ht s.mem) (ht s.mem x) 0 p) (ht s.mem x) ≠ some x := by
      rw [h6, if_neg (fun hh => lt_irrefl _ hh.1), hpm.2, firstAt_cons_neg _ (lt_irrefl _)]
      intro hh
      exact hxq (firstAt_some hh).1
    refine ⟨mem1, ?_⟩
    simp only [unlinkLoop, h1, unlinkStep_eq_none (hu3 _ hlt) (by rw [h3]; exact hpm.1) hne]
  refine ⟨_, u, hu1, ?_, ?_, hstop, ?_⟩
  · rw [forward_get_eq_fwd hx1, hx2]; rfl
  · intro n hn
    obtain ⟨m, h1, _⟩ := hloop n hn
    exact ⟨m, h1⟩
  · by_cases hlt : ht s.mem x < s.Level
    · obtain ⟨m, h1⟩ := hstop hlt
      have hall := unlinkLoop_stop h1 (s.Level - (ht s.mem x + 1))
      rw [show ht s.mem x + 1 + (s.Level - (ht s.mem x + 1)) = s.Level by omega] at hall
      exact ⟨m, by rw [hall]; simp [hlt]⟩
    · have heq : ht s.mem x = s.Level := le_antisymm hm2 (not_lt.mp hlt)
      obtain ⟨m, h1, _⟩ := hloop (ht s.mem x) (le_refl _)
      rw [heq] at h1
      exact ⟨m, by rw [h1]; simp [heq]⟩

/-! ## The chains after `Insert` and `Delete` -/

theorem filter_ne_split {p q : List Nat} {x : Nat} (hn : (p ++ x :: q).Nodup) :
    (p ++ x :: q).filter (fun a => decide (a ≠ x)) = p ++ q := by
  have h1 : x ∉ p := fun hm =>
    (List.nodup_append.mp hn).2.2 hm (List.mem_cons_self x q)
  have h2 : x ∉ q := (List.nodup_cons.mp (List.nodup_append.mp hn).2.1).1
  rw [List.filter_append, List.filter_cons]
  simp only [ne_eq, not_true_eq_false, decide_False, Bool.false_eq_true, if_false]
  rw [List.filter_eq_self.mpr, List.filter_eq_self.mpr]
  · intro a ha
    have : a ≠ x := fun hh => h2 (hh ▸ ha)
    simpa using this
  · intro a ha
    have : a ≠ x := fun hh => h1 (hh ▸ ha)
    simpa using this

/-- When `Insert` raises `Level`, the new element is alone on the new top level. -/
theorem filter_top_level {H1 H : Nat → Nat} {L e : Nat} {p q : List Nat}
    (hp : ∀ a ∈ p ++ q, H1 a = H a) (hH : ∀ a ∈ p ++ q, H a ≤ L) (he : L < H1 e) :
    (p ++ e :: q).filter (fun a => decide (L < H1 a)) = [e] := by
  have h1 : p.filter (fun a => decide (L < H1 a)) = [] := by
    rw [List.filter_eq_nil_iff]
    intro a ha
    have := hH a (List.mem_append_left q ha)
    rw [hp a (List.mem_append_left q ha)]
    simpa using this
  have h2 : q.filter (fun a => decide (L < H1 a)) = [] := by
    rw [List.filter_eq_nil_iff]
    intro a ha
    have := hH a (List.mem_append_right p ha)
    rw [hp a (List.mem_append_right p ha)]
    simpa using this
  rw [List.filter_append, List.filter_cons, h1, h2]
  simp [he]

theorem run6_eq : Delete run1 10 = some (run6, some 1) := by decide

theorem run6_reachable : Reachable run6 :=
  Reachable.delete run1 run6 10 (some 1) run1_reachable run6_eq

/-- Claim C11. Level-membership invariant: on every reachable list, with `c` the level-0
chain, the chain of each level `i` below `MaxLevel` holds exactly the elements of `c`
that have more than `i` forward slots; hence an element on the chain of level `i` is on
the chain of every level `j < i`. -/
theorem level_membership {V : Type} (s : SkipList V) (hr : Reachable s) :
    ∃ c, levelChain s 0 = some c ∧ ∀ i, i < MaxLevel →
      ∃ ci, levelChain s i = some ci ∧
        (∀ n, n ∈ ci ↔ n ∈ c ∧ i < ht s.mem n) ∧
        (∀ n, n ∈ ci → ∀ j, j < i → ∃ cj, levelChain s j = some cj ∧ n ∈ cj) := by
  obtain ⟨c, h⟩ := hr.inv
  refine ⟨c, h.levelChain_zero, ?_⟩
  intro i hi
  refine ⟨_, h.levelChain_eq hi, ?_, ?_⟩
  · intro n
    rw [List.mem_filter]
    simp only [decide_eq_true_eq]
  · intro n hn j hj
    refine ⟨_, h.levelChain_eq (lt_trans hj hi), ?_⟩
    rw [List.mem_filter] at hn ⊢
    simp only [decide_eq_true_eq] at hn ⊢
    exact ⟨hn.1, lt_trans hj hn.2⟩

theorem level_membership_witness :
    Reachable run4 ∧ ∃ c, levelChain run4 0 = some c ∧ ∀ i, i < MaxLevel →
      ∃ ci, levelChain run4 i = some ci ∧
        (∀ n, n ∈ ci ↔ n ∈ c ∧ i < ht run4.mem n) ∧
        (∀ n, n ∈ ci → ∀ j, j < i → ∃ cj, levelChain run4 j = some cj ∧ n ∈ cj) :=
  ⟨run4_reachable, level_membership run4 run4_reachable⟩

/-- Claim C12. Level bound: on every reachable list `Level` is at most `MaxLevel` (it is a
natural number, so it is at least 0), and every record of the store, the sentinel and
every element created by `Insert`, has between 1 and `MaxLevel` forward slots. -/
theorem level_bound {V : Type} (s : SkipList V) (hr : Reachable s) :
    s.Level ≤ MaxLevel ∧
      ∀ a, a < s.mem.length → 1 ≤ ht s.mem a ∧ ht s.mem a ≤ MaxLevel := by
  obtain ⟨c, h⟩ := hr.inv
  refine ⟨h.level, ?_⟩
  intro a ha
  rcases Nat.eq_zero_or_pos a with h0 | hpos
  · rw [h0, h.headHt]; exact ⟨by decide, le_refl _⟩
  · have := hr.store_bounds.1 a hpos ha
    exact ⟨this.1, le_trans this.2 h.level⟩

theorem level_bound_witness :
    Reachable run4 ∧ run4.Level ≤ MaxLevel ∧
      ∀ a, a < run4.mem.length → 1 ≤ ht run4.mem a ∧ ht run4.mem a ≤ MaxLevel :=
  ⟨run4_reachable, level_bound run4 run4_reachable⟩

/-- Claim C13. No operation fails: on every reachable list, for every key, value and trial
sequence, `Search`, `Insert` and `Delete` return normally, that is, without a nil
dereference or an index out of range, and their walks end. -/
theorem operations_return {V : Type} (s : SkipList V) (hr : Reachable s) (key : Int)
    (value : Option V) (rnd : Nat → Bool) :
    (∃ r, Search s key = some r) ∧ (∃ r, Insert s key value rnd = some r) ∧
      ∃ r, Delete s key = some r := by
  obtain ⟨c, h⟩ := hr.inv
  refine ⟨⟨_, h.search_find key⟩, ?_, ?_⟩
  · obtain ⟨s1, e, _, _, h1, _⟩ := h.insert_spec key value rnd
    exact ⟨_, h1⟩
  · rcases exists_split3 (keyAt s.mem) key c h.sorted with
      ⟨p, q, hc, hp, hq⟩ | ⟨p, y, q, hc, hp, hy, hq⟩
    · exact ⟨_, h.delete_absent hc hp hq⟩
    · obtain ⟨s1, h1, _⟩ := h.delete_present hc hp hy hq
      exact ⟨_, h1⟩

theorem operations_return_witness :
    Reachable run4 ∧ (∃ r, Search run4 12 = some r) ∧
      (∃ r, Insert run4 12 (some 120) (draw 7) = some r) ∧ ∃ r, Delete run4 12 = some r :=
  ⟨run4_reachable, operations_return run4 run4_reachable 12 (some 120) (draw 7)⟩

/-- Claim C14, as the program behaves. On every reachable list that holds `key`, with `x`
the element `Delete(key)` finds and `update` the array its descent fills: the check
`update[i].Forward[i] != x` is false at every level below the number of forward slots
of `x`; when `x` has fewer slots than `Level` the check is true at the level equal to
that number; so the unlink loop leaves through its mismatch branch exactly when `x`
has fewer forward slots than `Level`. -/
theorem delete_mismatch_exactly_above_the_element {V : Type} (s : SkipList V)
    (hr : Reachable s) (key : Int) (hk : Holds s key) :
    ∃ x0 update x,
      updateLevels s.mem key s.mem.length s.Level s.Head (List.replicate MaxLevel none)
        = some (x0, update) ∧
      (cell s.mem x0).Forward[0]? = some (some x) ∧ keyAt s.mem x = key ∧
      (∀ n, n ≤ ht s.mem x → ∃ m, unlinkLoop update x n s.mem = some (m, false)) ∧
      (ht s.mem x < s.Level →
        ∃ m, unlinkLoop update x (ht s.mem x + 1) s.mem = some (m, true)) ∧
      ∃ m, unlinkLoop update x s.Level s.mem = some (m, decide (ht s.mem x < s.Level)) := by
  obtain ⟨c, h⟩ := hr.inv
  obtain ⟨a, ha, hka⟩ := (h.holds_iff key).mp hk
  rcases exists_split3 (keyAt s.mem) key c h.sorted with
    ⟨p, q, hc, hp, hq⟩ | ⟨p, y, q, hc, hp, hy, hq⟩
  · exact absurd hka (not_mem_key_of_split hp hq a (hc ▸ ha))
  · obtain ⟨x0, u, h1, h2, h3, h4, h5⟩ := h.unlink_checks hc hp hy hq
    exact ⟨x0, u, y, h1, h2, hy, h3, h4, h5⟩

theorem delete_mismatch_exactly_above_the_element_witness :
    Reachable run4 ∧ Holds run4 10 ∧ ∃ x0 update x,
      updateLevels run4.mem 10 run4.mem.length run4.Level run4.Head
          (List.replicate MaxLevel none) = some (x0, update) ∧
      (cell run4.mem x0).Forward[0]? = some (some x) ∧ keyAt run4.mem x = 10 ∧
      (∀ n, n ≤ ht run4.mem x → ∃ m, unlinkLoop update x n run4.mem = some (m, false)) ∧
      (ht run4.mem x < run4.Level →
        ∃ m, unlinkLoop update x (ht run4.mem x + 1) run4.mem = some (m, true)) ∧
      ∃ m, unlinkLoop update x run4.Level run4.mem
        = some (m, decide (ht run4.mem x < run4.Level)) :=
  ⟨run4_reachable, run4_holds_10,
    delete_mismatch_exactly_above_the_element run4 run4_reachable 10 run4_holds_10⟩

/-- Claim C14, refuted as stated. After the keys 10, 20, 5 and 15 have been inserted with
levels 1, 2, 1 and 1, the list holds 10 at address 1, and the unlink loop of
`Delete(10)`, run with the update array of its descent, leaves through the mismatch
branch (the flag is `true`): the check is true at level 1. -/
theorem delete_mismatch_reached :
    Reachable run4 ∧ Holds run4 10 ∧
      (updateLevels run4.mem 10 run4.mem.length run4.Level run4.Head
          (List.replicate MaxLevel none)).bind
        (fun r => unlinkLoop r.2 1 run4.Level run4.mem) = some (run5.mem, true) :=
  ⟨run4_reachable, run4_holds_10, by decide⟩

/-- Claim C15, as the program behaves. On every reachable list, every element of the
level-0 chain has at most `Level` forward slots, and so has every element `Insert`
ever created, deleted or not; and `Level` is 0, when no element was ever created, or
the number of forward slots of one of those elements.  So `Level` is the largest
number of slots over the elements ever created: `Delete` never lowers it. -/
theorem level_is_largest_ever_created {V : Type} (s : SkipList V) (hr : Reachable s) :
    ∃ c, levelChain s 0 = some c ∧ (∀ n, n ∈ c → ht s.mem n ≤ s.Level) ∧
      (∀ a, 0 < a → a < s.mem.length → ht s.mem a ≤ s.Level) ∧
      (s.mem.length = 1 → s.Level = 0) ∧
      (1 < s.mem.length → ∃ a, 0 < a ∧ a < s.mem.length ∧ ht s.mem a = s.Level) := by
  obtain ⟨c, h⟩ := hr.inv
  obtain ⟨h1, h2⟩ := hr.store_bounds
  refine ⟨c, h.levelChain_zero, fun n hn => (h.hts n hn).2, fun a ha1 ha2 => (h1 a ha1 ha2).2,
    ?_, ?_⟩
  · intro hlen
    rcases h2 with hz | ⟨a, ha1, ha2, _⟩
    · exact hz
    · omega
  · intro hlen
    rcases h2 with hz | hex
    · have := (h1 1 Nat.one_pos hlen).1
      have := (h1 1 Nat.one_pos hlen).2
      omega
    · exact hex

theorem level_is_largest_ever_created_witness :
    Reachable run6 ∧ ∃ c, levelChain run6 0 = some c ∧
      (∀ n, n ∈ c → ht run6.mem n ≤ run6.Level) ∧
      (∀ a, 0 < a → a < run6.mem.length → ht run6.mem a ≤ run6.Level) ∧
      (run6.mem.length = 1 → run6.Level = 0) ∧
      (1 < run6.mem.length → ∃ a, 0 < a ∧ a < run6.mem.length ∧ ht run6.mem a = run6.Level) :=
  ⟨run6_reachable, level_is_largest_ever_created run6 run6_reachable⟩

/-- Claim C15, refuted as stated. After `Insert(10, 100)` with level 1 and `Delete(10)`
the list holds no element (its level-0 chain is empty and `Len` is 0), yet `Level`
is 1, not 0. -/
theorem level_stays_after_delete :
    Reachable run6 ∧ levelChain run6 0 = some [] ∧ run6.Len = 0 ∧ run6.Level = 1 :=
  ⟨run6_reachable, by decide, by decide, by decide⟩

/-- Claim C16. A single `Insert` raises `Level` by at most one.  On every reachable list
with `Level = L`, for every key, value and trial sequence, `r` being the level
`randomLevel` draws (between 1 and `MaxLevel`): `Insert` returns an element; if the
list held the key, `Level` stays `L`; if it did not, `Level` becomes `L + 1` when
`r > L` and stays `L` otherwise, the returned element is new and has exactly
`min r (L + 1)` forward slots, and when `Level` grows `Head.Forward[L]` points at the new
element, its own `Forward[L]` is nil and it is the only element on the chain of
level `L`. -/
theorem insert_raises_level_by_at_most_one {V : Type} (s : SkipList V) (hr : Reachable s)
    (key : Int) (value : Option V) (rnd : Nat → Bool) :
    1 ≤ randomLevel rnd ∧ randomLevel rnd ≤ MaxLevel ∧
    ∃ s1 e, Insert s key value rnd = some (s1, some e) ∧
      (Holds s key → s1.Level = s.Level) ∧
      (¬ Holds s key →
        s1.Level = (if s.Level < randomLevel rnd then s.Level + 1 else s.Level) ∧
        s.mem[e]? = none ∧
        ht s1.mem e = min (randomLevel rnd) (s.Level + 1) ∧
        (s.Level < randomLevel rnd →
          (cell s1.mem s1.Head).Forward[s.Level]? = some (some e) ∧
          (cell s1.mem e).Forward[s.Level]? = some none ∧
          levelChain s1 s.Level = some [e])) := by
  obtain ⟨c, h⟩ := hr.inv
  obtain ⟨hr1, hr2⟩ := randomLevel_bounds rnd
  refine ⟨hr1, hr2, ?_⟩
  rcases exists_split3 (keyAt s.mem) key c h.sorted with
    ⟨p, q, hc, hp, hq⟩ | ⟨p, y, q, hc, hp, hy, hq⟩
  · have hno : ¬ Holds s key := fun hk => by
      obtain ⟨a, ha, hka⟩ := (h.holds_iff key).mp hk
      exact not_mem_key_of_split hp hq a (hc ▸ ha) hka
    obtain ⟨s1, h1, h2, _, h4, _, h6, _, _, h9⟩ := h.insert_absent hc hp hq value rnd
    refine ⟨s1, s.mem.length, h1, fun hk => absurd hk hno, fun _ => ⟨h4, ?_, ?_, ?_⟩⟩
    · exact List.getElem?_eq_none (le_refl _)
    · rw [h6, if_pos rfl]
      by_cases hg : s.Level < randomLevel rnd
      · simp only [hg, if_true]; omega
      · simp only [hg, if_false]; omega
    · intro hg
      have hL : s.Level < MaxLevel := lt_of_lt_of_le hg hr2
      have hlast : lastAt (ht s.mem) s.Level 0 p = 0 := h.lastAt_level hc (le_refl _)
      have hlvl : (if s.Level < randomLevel rnd then s.Level + 1 else randomLevel rnd)
          = s.Level + 1 := by simp only [hg, if_true]
      have hhe : ht s1.mem s.mem.length = s.Level + 1 := by rw [h6, if_pos rfl, hlvl]
      have hf0 : fwd s1.mem 0 s.Level = some s.mem.length := by
        rw [h9, hlvl, if_pos ⟨Nat.lt_succ_self _, hlast.symm⟩]
      have hfe : fwd s1.mem s.mem.length s.Level = none := by
        have hne : ¬ (s.Level < s.Level + 1 ∧ s.mem.length = lastAt (ht s.mem) s.Level 0 p) :=
          fun hh => Nat.ne_of_lt h.head_lt (by rw [← hlast]; exact hh.2.symm)
        rw [h9, hlvl, if_neg hne, if_pos rfl, if_pos (Nat.lt_succ_self _)]
        exact h.firstAt_level (le_refl _) fun a ha => hc ▸ List.mem_append_right p ha
      refine ⟨?_, ?_, ?_⟩
      · rw [h2.head, forward_get_eq_fwd (by rw [h2.headHt]; exact hL), hf0]
      · rw [forward_get_eq_fwd (by rw [hhe]; exact Nat.lt_succ_self _), hfe]
      · rw [h2.levelChain_eq hL]
        congr 1
        refine filter_top_level (H := ht s.mem) ?_ ?_ (by rw [hhe]; exact Nat.lt_succ_self _)
        · intro a ha
          rw [h6, if_neg (Nat.ne_of_lt (h.valid a (hc ▸ ha)).2)]
        · intro a ha
          exact (h.hts a (hc ▸ ha)).2
  · obtain ⟨s1, h1, _, _, h4, _⟩ := h.insert_present hc hp hy hq value rnd
    refine ⟨s1, y, h1, fun _ => h4, fun hno => ?_⟩
    exact absurd ((h.holds_iff key).mpr
      ⟨y, hc ▸ List.mem_append_right p (List.mem_cons_self y q), hy⟩) hno

theorem insert_raises_level_by_at_most_one_witness :
    Reachable run4 ∧ 1 ≤ randomLevel (draw 5) ∧ randomLevel (draw 5) ≤ MaxLevel ∧
    ∃ s1 e, Insert run4 12 (some 120) (draw 5) = some (s1, some e) ∧
      (Holds run4 12 → s1.Level = run4.Level) ∧
      (¬ Holds run4 12 →
        s1.Level = (if run4.Level < randomLevel (draw 5) then run4.Level + 1
          else run4.Level) ∧
        run4.mem[e]? = none ∧
        ht s1.mem e = min (randomLevel (draw 5)) (run4.Level + 1) ∧
        (run4.Level < randomLevel (draw 5) →
          (cell s1.mem s1.Head).Forward[run4.Level]? = some (some e) ∧
          (cell s1.mem e).Forward[run4.Level]? = some none ∧
          levelChain s1 run4.Level = some [e])) :=
  ⟨run4_reachable,
    insert_raises_level_by_at_most_one run4 run4_reachable 12 (some 120) (draw 5)⟩

/-- Claim C17. For every sequence of trials, `randomLevel` returns a level between 1 and
`MaxLevel` = 16; for `k < 16` it returns `k` exactly when the first `k - 1` trials
succeed and the `k`-th fails; and it returns 16 exactly when the first 15 trials all
succeed.  So it returns 1 plus the number of leading successes, capped at 16. -/
theorem randomLevel_counts_leading_successes (rnd : Nat → Bool) :
    (1 ≤ randomLevel rnd ∧ randomLevel rnd ≤ 16) ∧
      (∀ k, 1 ≤ k → k < 16 →
        (randomLevel rnd = k ↔ (∀ i, i < k - 1 → rnd i = true) ∧ rnd (k - 1) = false)) ∧
      (randomLevel rnd = 16 ↔ ∀ i, i < 15 → rnd i = true) := by
  have hM : MaxLevel = 16 := rfl
  refine ⟨randomLevel_bounds rnd, ?_, ?_⟩
  · intro k hk1 hk2
    constructor
    · intro hk
      rcases randomLevel_cases rnd with ⟨j, _, hj2, hj3, hj4⟩ | ⟨_, h2⟩
      · have hjk : k = j + 1 := by rw [← hk, hj4]
        subst hjk
        exact ⟨fun i hi => hj3 i (by omega), by simpa using hj2⟩
      · rw [hk, hM] at h2; omega
    · rintro ⟨h1, h2⟩
      exact randomLevelLoop_stop rnd k (by rw [hM]; exact hk2) h2 MaxLevel 1 (le_refl _) hk1
        (by rw [hM]; omega) (fun i _ hi => h1 i hi)
  · constructor
    · intro h16
      rcases randomLevel_cases rnd with ⟨j, hj1, _, _, hj4⟩ | ⟨h1, _⟩
      · rw [h16, hM] at *; omega
      · intro i hi; exact h1 i (by rw [hM]; exact hi)
    · intro hall
      rcases randomLevel_cases rnd with ⟨j, hj1, hj2, _, _⟩ | ⟨_, h2⟩
      · rw [hall j (by rw [hM] at hj1; exact hj1)] at hj2; cases hj2
      · rw [h2, hM]

/-- Claim C18. Exact outcome of `Delete` on a key the list holds.  On every reachable
list that holds `key`, at the element `x` of the level-0 chain, `x` having `h` forward
slots (`1 ≤ h ≤ Level`): `Delete(key)` returns; `Level` is unchanged; the chain of
every level is the former chain without `x` (so `x` is unlinked from the levels
`0 .. h - 1`, the ones it was on); if `h` equals `Level`, `Len` is decremented by 1 and
`x` is returned; if `h` is less than `Level`, nil is returned and `Len` is unchanged. -/
theorem delete_present_outcome {V : Type} (s : SkipList V) (hr : Reachable s) (key : Int)
    (hk : Holds s key) :
    ∃ c x s1 r, levelChain s 0 = some c ∧ x ∈ c ∧ keyAt s.mem x = key ∧
      Delete s key = some (s1, r) ∧ s1.Level = s.Level ∧
      1 ≤ ht s.mem x ∧ ht s.mem x ≤ s.Level ∧
      (∀ i, i < MaxLevel → ∃ ci, levelChain s i = some ci ∧
        (x ∈ ci ↔ i < ht s.mem x) ∧
        levelChain s1 i = some (ci.filter fun a => decide (a ≠ x))) ∧
      (ht s.mem x = s.Level → s1.Len = s.Len - 1 ∧ r = some x) ∧
      (ht s.mem x < s.Level → s1.Len = s.Len ∧ r = none) := by
  obtain ⟨c, h⟩ := hr.inv
  obtain ⟨a, ha, hka⟩ := (h.holds_iff key).mp hk
  rcases exists_split3 (keyAt s.mem) key c h.sorted with
    ⟨p, q, hc, hp, hq⟩ | ⟨p, y, q, hc, hp, hy, hq⟩
  · exact absurd hka (not_mem_key_of_split hp hq a (hc ▸ ha))
  · obtain ⟨s1, h1, h2, h3, h4, _, h6, _⟩ := h.delete_present hc hp hy hq
    have hyc : y ∈ c := hc ▸ List.mem_append_right p (List.mem_cons_self y q)
    have hnd : (p ++ y :: q).Nodup := by
      have := h.nodup
      rw [hc] at this
      exact (List.nodup_cons.mp this).2
    refine ⟨c, y, s1, _, h.levelChain_zero, hyc, hy, h1, h4, (h.hts y hyc).1,
      (h.hts y hyc).2, ?_, ?_, ?_⟩
    · intro i hi
      refine ⟨_, h.levelChain_eq hi, ?_, ?_⟩
      · rw [List.mem_filter]
        simp only [decide_eq_true_eq]
        exact ⟨fun hh => hh.2, fun hh => ⟨hyc, hh⟩⟩
      · rw [h2.levelChain_eq hi]
        congr 1
        have hfun : (fun a => decide (i < ht s1.mem a)) = fun a => decide (i < ht s.mem a) := by
          funext b; rw [h6]
        rw [hfun, List.filter_filter, hc, ← filter_ne_split hnd, List.filter_filter]
        congr 1
        funext b
        exact Bool.and_comm _ _
    · intro hfull
      exact ⟨by rw [h3, if_pos hfull], by rw [if_pos hfull]⟩
    · intro hlt
      exact ⟨by rw [h3, if_neg (Nat.ne_of_lt hlt)], by rw [if_neg (Nat.ne_of_lt hlt)]⟩

theorem delete_present_outcome_witness :
    Reachable run4 ∧ Holds run4 10 ∧
    ∃ c x s1 r, levelChain run4 0 = some c ∧ x ∈ c ∧ keyAt run4.mem x = 10 ∧
      Delete run4 10 = some (s1, r) ∧ s1.Level = run4.Level ∧
      1 ≤ ht run4.mem x ∧ ht run4.mem x ≤ run4.Level ∧
      (∀ i, i < MaxLevel → ∃ ci, levelChain run4 i = some ci ∧
        (x ∈ ci ↔ i < ht run4.mem x) ∧
        levelChain s1 i = some (ci.filter fun a => decide (a ≠ x))) ∧
      (ht run4.mem x = run4.Level → s1.Len = run4.Len - 1 ∧ r = some x) ∧
      (ht run4.mem x < run4.Level → s1.Len = run4.Len ∧ r = none) :=
  ⟨run4_reachable, run4_holds_10, delete_present_outcome run4 run4_reachable 10 run4_holds_10⟩

/-- Claim C19. `Insert` affects only its own key: on every reachable list, for keys
`key1 ≠ key`, every value and trial sequence, `Insert(key, value)` returns, and
`Search(key1)` returns the same result after the call as before it: the same flag and
the same element, whose key and value the call has not changed. -/
theorem insert_keeps_other_keys {V : Type} (s : SkipList V) (hr : Reachable s)
    (key key1 : Int) (hne : key1 ≠ key) (value : Option V) (rnd : Nat → Bool) :
    ∃ s1 r res, Insert s key value rnd = some (s1, r) ∧
      Search s key1 = some res ∧ Search s1 key1 = some res ∧
      ∀ a, res.1 = some a →
        keyAt s1.mem a = keyAt s.mem a ∧ valAt s1.mem a = valAt s.mem a := by
  obtain ⟨c, h⟩ := hr.inv
  obtain ⟨s1, r, h1, h2, h3⟩ := h.insert_frame key key1 hne value rnd
  refine ⟨s1, r, _, h1, h.search_find key1, by rw [h2]; exact h.search_find key1, ?_⟩
  intro a ha
  refine h3 a ?_
  rw [h.search_find key1]
  simp only at ha
  rw [ha]; rfl

theorem insert_keeps_other_keys_witness :
    Reachable run4 ∧ ∃ s1 r res, Insert run4 10 (some 7) (draw 3) = some (s1, r) ∧
      Search run4 15 = some res ∧ Search s1 15 = some res ∧
      ∀ a, res.1 = some a →
        keyAt s1.mem a = keyAt run4.mem a ∧ valAt s1.mem a = valAt run4.mem a :=
  ⟨run4_reachable,
    insert_keeps_other_keys run4 run4_reachable 10 15 (by decide) (some 7) (draw 3)⟩

/-- Claim C20. `Delete` affects only its own key: on every reachable list, for keys
`key1 ≠ key`, `Delete(key)` returns, whether the list holds `key` or not and through
whichever exit, and `Search(key1)` returns the same result after the call as before
it: the same flag and the same element, whose key and value the call has not
changed. -/
theorem delete_keeps_other_keys {V : Type} (s : SkipList V) (hr : Reachable s)
    (key key1 : Int) (hne : key1 ≠ key) :
    ∃ s1 r res, Delete s key = some (s1, r) ∧
      Search s key1 = some res ∧ Search s1 key1 = some res ∧
      ∀ a, res.1 = some a →
        keyAt s1.mem a = keyAt s.mem a ∧ valAt s1.mem a = valAt s.mem a := by
  obtain ⟨c, h⟩ := hr.inv
  obtain ⟨s1, r, h1, h2, h3⟩ := h.delete_frame key key1 hne
  refine ⟨s1, r, _, h1, h.search_find key1, by rw [h2]; exact h.search_find key1, ?_⟩
  intro a ha
  refine h3 a ?_
  rw [h.search_find key1]
  simp only at ha
  rw [ha]; rfl

theorem delete_keeps_other_keys_witness :
    Reachable run4 ∧ ∃ s1 r res, Delete run4 10 = some (s1, r) ∧
      Search run4 15 = some res ∧ Search s1 15 = some res ∧
      ∀ a, res.1 = some a →
        keyAt s1.mem a = keyAt run4.mem a ∧ valAt s1.mem a = valAt run4.mem a :=
  ⟨run4_reachable, delete_keeps_other_keys run4 run4_reachable 10 15 (by decide)⟩

end skiplist
